import Mathlib

/-!
Verification development for the `cx` command-line clipboard
(`cmd/cx/clipboard.go`): a persisted, ordered log of cut entries with
move/copy paste semantics, stale-path detection and index-based mutation.

The Go code is shallowly embedded as pure Lean functions:

* The filesystem is a finite tree (`FSObj`): regular files carry their
  byte content and permission bits, symbolic links carry their target
  path verbatim, directories carry permission bits and a named list of
  children.  Paths are component lists (`Path`), already cleaned and
  rooted (the model does not re-implement `filepath.Clean`; symlinks in
  *intermediate* path components are outside the model, matching how the
  program itself only ever `Lstat`s whole paths).
* OS primitives used by the program (`os.Lstat`, `os.Rename`,
  `os.MkdirAll`, `os.OpenFile(O_WRONLY|O_CREATE|O_TRUNC)`, `os.Symlink`,
  `os.Readlink`, `os.ReadDir`) are modelled with their POSIX behaviour
  at the granularity the program observes: `rename` on equal paths is a
  successful no-op, `symlink` fails when the new name already exists,
  opening a directory for writing fails, `MkdirAll` is a no-op on an
  existing directory and otherwise creates every missing directory with
  the given permission bits (the umask is not modelled; the process is
  modelled as the owner of every object, so `unix.Access(R_OK)` is the
  owner read bit).  Other failure modes (quota, ENAMETOOLONG, ...) are
  not modelled; destination collisions overwrite, as the design notes
  state ("last-write overwrites").
* The store file always exists (the program lazily materialises it); a
  `Sys` state carries the filesystem root, the working directory and the
  parsed store.  `readClipboard`/`writeClipboard` move `Clipboard`
  values in and out of the store; the JSON (de)serialisation they
  perform through `encoding/json` is modelled separately at the JSON
  value level (`marshalClipboard`/`unmarshalClipboard`), with
  `time.Time` represented by its RFC3339 rendering.
-/

namespace Cx

/-- A cleaned absolute path, as its list of components ( `[]` is `/` ). -/
abbrev Path := List String

mutual
/-- A filesystem object: regular file (content bytes and permission
bits), symbolic link (target path, stored verbatim, never resolved at
creation), or directory (permission bits and named children). -/
inductive FSObj where
  | file (content : List Nat) (mode : Nat)
  | symlink (target : Path)
  | dir (mode : Nat) (children : FSChildren)

/-- The ordered children of a directory: a list of (name, object) pairs. -/
inductive FSChildren where
  | nil
  | node (name : String) (obj : FSObj) (rest : FSChildren)
end

/-- Look up the directory entry with the given name (first match). -/
def lookupChild : FSChildren → String → Option FSObj
  | .nil, _ => none
  | .node k v rest, n => if k = n then some v else lookupChild rest n

/-- Replace the first directory entry with the given name, or append a
new one: the model of creating-or-overwriting a name inside a directory. -/
def setChild : FSChildren → String → FSObj → FSChildren
  | .nil, n, o => .node n o .nil
  | .node k v rest, n, o =>
    if k = n then .node k o rest else .node k v (setChild rest n o)

/-- Drop every directory entry with the given name. -/
def removeChild : FSChildren → String → FSChildren
  | .nil, _ => .nil
  | .node k v rest, n =>
    if k = n then removeChild rest n else .node k v (removeChild rest n)

/-- Walk a path down from this object without following symlinks at the
final component: the model of `os.Lstat` (and of `os.Stat` for paths
whose final object is not a symlink). -/
def FSObj.lookup : FSObj → Path → Option FSObj
  | o, [] => some o
  | .dir _ cs, n :: p =>
    match lookupChild cs n with
    | some c => c.lookup p
    | none => none
  | .file _ _, _ :: _ => none
  | .symlink _, _ :: _ => none

/-- Write an object at a path, overwriting whatever final object is
there; every intermediate component must already be a directory. -/
def FSObj.set : FSObj → Path → FSObj → Option FSObj
  | _, [], o => some o
  | .dir m cs, n :: p, o =>
    match p with
    | [] => some (.dir m (setChild cs n o))
    | _ :: _ =>
      match lookupChild cs n with
      | some c => (FSObj.set c p o).map fun c2 => .dir m (setChild cs n c2)
      | none => none
  | .file _ _, _ :: _, _ => none
  | .symlink _, _ :: _, _ => none

/-- Remove the object at a path (the removal half of `os.Rename`);
fails if the path does not exist or is the root. -/
def FSObj.remove : FSObj → Path → Option FSObj
  | _, [] => none
  | .dir m cs, n :: p =>
    match p with
    | [] =>
      match lookupChild cs n with
      | some _ => some (.dir m (removeChild cs n))
      | none => none
    | _ :: _ =>
      match lookupChild cs n with
      | some c => (FSObj.remove c p).map fun c2 => .dir m (setChild cs n c2)
      | none => none
  | .file _ _, _ :: _ => none
  | .symlink _, _ :: _ => none

/-- Model of `os.MkdirAll(path, mode)`: creates every missing directory
along the path with the given permission bits, leaves already-existing
directories (and their modes) untouched, and fails if a non-directory is
in the way. -/
def mkdirAll : FSObj → Path → Nat → Option FSObj
  | o, [], _ =>
    match o with
    | .dir _ _ => some o
    | _ => none
  | o, n :: p, mode =>
    match o with
    | .dir m cs =>
      let child :=
        match lookupChild cs n with
        | some c => c
        | none => FSObj.dir mode .nil
      (mkdirAll child p mode).map fun c2 => .dir m (setChild cs n c2)
    | _ => none

/-- Follow a chain of symlinks from a path to a non-symlink object, with
fuel bounding the chain length (the kernel's limit is 40): the model of
path resolution done by `os.Open`/`os.Stat`. -/
def resolveObj : FSObj → Path → Nat → Option FSObj
  | _, _, 0 => none
  | root, p, fuel + 1 =>
    match root.lookup p with
    | some (.symlink t) => resolveObj root t fuel
    | some o => some o
    | none => none

/-- Destination of a paste: `filepath.Join(destDir, filepath.Base(src))`.
`filepath.Base` of the root is `/`, and joining `/` onto a directory
yields that directory back, hence the `[]` case. -/
def joinBase (destDir : Path) (src : Path) : Path :=
  match src.getLast? with
  | some n => destDir ++ [n]
  | none => destDir

/-- Owner read permission bit (0o400): the model of
`unix.Access(path, unix.R_OK)` with the process as owner. -/
def canRead : FSObj → Bool
  | .file _ m => m.testBit 8
  | .dir m _ => m.testBit 8
  | .symlink _ => true

/-- Whether an `Lstat` result reports a symbolic link
(`fileInfo.Mode()&os.ModeSymlink != 0`). -/
def isSymlinkB : FSObj → Bool
  | .symlink _ => true
  | _ => false

/-- Whether an `Lstat`/`Stat` result reports a directory (`IsDir()`). -/
def isDirB : FSObj → Bool
  | .dir _ _ => true
  | _ => false

/-- A clipboard entry (`Entry` in `clipboard.go`): paths are stored in
component form, the `time.Time` timestamp by its RFC3339 rendering. -/
structure Entry where
  original_path : Path
  current_path : Path
  timestamp : String
deriving DecidableEq, Repr

/-- The collection of clipboard entries (`Clipboard` in `clipboard.go`). -/
structure Clipboard where
  entries : List Entry
deriving DecidableEq, Repr

/-- The state one invocation of the tool operates on: the filesystem
root (a directory object), the working directory (`os.Getwd`), and the
parsed contents of the store file (which the program lazily creates, so
it always exists here). -/
structure Sys where
  fs : FSObj
  cwd : Path
  store : Clipboard

/-- The error kinds the operations surface, with the message text the Go
code produces attached by `CxErr.message`. `ioError` stands for an error
propagated verbatim from an OS primitive. -/
inductive CxErr where
  | notFound (p : Path)
  | noReadPermission (p : Path)
  | emptyClipboard
  | staleEntry (p : Path)
  | invalidIndex (i : Nat)
  | ioError

/-- The characters of a non-root path: each component preceded by a
slash. -/
def pathCharsAux : Path → List Char
  | [] => []
  | c :: rest => '/' :: (c.data ++ pathCharsAux rest)

/-- Render a path the way the Go code stores it ( `/` -separated,
rooted; the root itself is `/` ). -/
def renderPath (p : Path) : String :=
  match p with
  | [] => "/"
  | _ :: _ => String.mk (pathCharsAux p)

/-- The message text of each error, as produced by `fmt.Errorf` in the
source. -/
def CxErr.message : CxErr → String
  | .notFound p => "lstat " ++ renderPath p ++ ": no such file or directory"
  | .noReadPermission p => "no read permission for " ++ renderPath p
  | .emptyClipboard => "clipboard is empty"
  | .staleEntry p => "source path no longer exists: " ++ renderPath p
  | .invalidIndex i => "invalid clipboard index: " ++ toString i
  | .ioError => "i/o error"

/-- Model of `readClipboard`: reads and parses the clipboard file.  In the model
the store is always present and already parsed, so this is the store
projection (its JSON reading side is `unmarshalClipboard`). -/
def readClipboard (s : Sys) : Clipboard := s.store

/-- Model of `writeClipboard`: serialises the clipboard and overwrites the store
file (its JSON writing side is `marshalClipboard`). -/
def writeClipboard (s : Sys) (c : Clipboard) : Sys := { s with store := c }

/-- A command-line path argument, before `filepath.Abs`: either already
absolute or relative to the working directory. -/
structure RawPath where
  absolute : Bool
  comps : List String

/-- Model of `filepath.Abs`: absolute paths pass through, relative ones are
joined onto the working directory (inputs are modelled as already
cleaned, see the header). -/
def filepathAbs (cwd : Path) (p : RawPath) : Path :=
  if p.absolute then p.comps else cwd ++ p.comps

/-- Model of `cutFile`: validates existence (`os.Lstat`) and, unless the path is
itself a symlink, read permission (`unix.Access`); then appends an entry
with both paths set to the absolute path and persists.  No filesystem
mutation. -/
def cutFile (p : RawPath) (now : String) (s : Sys) : Except CxErr Sys :=
  let absPath := filepathAbs s.cwd p
  match s.fs.lookup absPath with
  | none => .error (.notFound absPath)
  | some info =>
    if !isSymlinkB info && !canRead info then
      .error (.noReadPermission absPath)
    else
      let clipboard := readClipboard s
      .ok (writeClipboard s
        ⟨clipboard.entries ++ [⟨absPath, absPath, now⟩]⟩)

/-- A sequence of cuts, each with its own capture timestamp, run in
order (`cutFile` invoked once per command-line invocation). -/
def cutAll (items : List (RawPath × String)) (s : Sys) : Except CxErr Sys :=
  match items with
  | [] => .ok s
  | (p, t) :: rest =>
    match cutFile p t s with
    | .error e => .error e
    | .ok s2 => cutAll rest s2

/-- Model of `copyFile`: opens the source (following symlinks), then opens the
destination with `O_WRONLY|O_CREATE|O_TRUNC` (which fails if the
destination is a directory) and copies the bytes; the destination gets
the resolved source's permission bits. -/
def copyFile (root : FSObj) (src dst : Path) : Option FSObj :=
  match resolveObj root src 40 with
  | some (.file content mode) =>
    match root.lookup dst with
    | some (.dir _ _) => none
    | _ => root.set dst (.file content mode)
  | _ => none

/-- Model of `copySymlink`: `os.Readlink` on the source then `os.Symlink` of the
same target string at the destination; `symlink(2)` fails with `EEXIST`
if the destination already exists, and the target is never resolved. -/
def copySymlink (root : FSObj) (src dst : Path) : Option FSObj :=
  match root.lookup src with
  | some (.symlink t) =>
    match root.lookup dst with
    | some _ => none
    | none => root.set dst (.symlink t)
  | _ => none

/-- The non-directory child step of `copyDir`'s loop: Go calls
`copyFile(srcPath, dstPath)` for every child that is not a directory, so
a symlink child is dereferenced (its target's bytes are copied) rather
than recreated as a link. -/
def copyFileObj (root : FSObj) (c : FSObj) (dst : Path) : Option FSObj :=
  match c with
  | .file content mode =>
    match root.lookup dst with
    | some (.dir _ _) => none
    | _ => root.set dst (.file content mode)
  | .symlink t =>
    match resolveObj root t 40 with
    | some (.file content mode) =>
      match root.lookup dst with
      | some (.dir _ _) => none
      | _ => root.set dst (.file content mode)
    | _ => none
  | .dir _ _ => none

mutual
/-- Model of `copyDir(src, dst)`: `os.Stat` the source directory, `os.MkdirAll`
the destination with the *source's* mode, then walk the children
(`os.ReadDir`): directories recurse into `copyDir`, everything else goes
through `copyFile`.  The source subtree is the snapshot taken at entry
(the model excludes the degenerate case of copying a directory into
itself, where Go would re-read its own partial output). -/
def copyTree (root : FSObj) (src : FSObj) (dst : Path) : Option FSObj :=
  match src with
  | .dir m cs =>
    match mkdirAll root dst m with
    | none => none
    | some r => copyKids r cs dst
  | _ => none

/-- The child loop of `copyDir`, threading the evolving filesystem. -/
def copyKids (root : FSObj) (cs : FSChildren) (dst : Path) : Option FSObj :=
  match cs with
  | .nil => some root
  | .node n c rest =>
    match c with
    | .dir m2 cs2 =>
      match copyTree root (.dir m2 cs2) (dst ++ [n]) with
      | none => none
      | some r => copyKids r rest dst
    | _ =>
      match copyFileObj root c (dst ++ [n]) with
      | none => none
      | some r => copyKids r rest dst
end

/-- Whether `rename(2)` may proceed given the source object and the
`Lstat` of the destination: a free destination always may; an existing
empty directory may be replaced only by a directory (`EISDIR`
otherwise), a non-empty directory never (`ENOTEMPTY`), and an existing
non-directory only by a non-directory (`ENOTDIR` when the source is a
directory). -/
def renameOverOk (srcObj : FSObj) (dstObj : Option FSObj) : Bool :=
  match dstObj with
  | none => true
  | some (.dir _ .nil) => isDirB srcObj
  | some (.dir _ (.node _ _ _)) => false
  | some (.file _ _) => ! isDirB srcObj
  | some (.symlink _) => ! isDirB srcObj

/-- Model of `os.Rename`: moving a path onto itself is a successful no-op
(POSIX); otherwise an occupied destination must be compatible per
`renameOverOk` (else `rename(2)` fails with `EISDIR`, `ENOTDIR` or
`ENOTEMPTY`), and the source subtree is detached and re-attached at the
destination, replacing what was there. -/
def renameFS (root : FSObj) (src dst : Path) : Option FSObj :=
  match root.lookup src with
  | none => none
  | some o =>
    if src = dst then some root
    else if renameOverOk o (root.lookup dst) then
      match root.remove src with
      | none => none
      | some r => r.set dst o
    else none

/-- Model of `pasteEntry`: `os.Lstat` the entry's current path, compute the
destination as cwd/base, then either copy (directory / symlink / file
dispatch on the `Lstat` result) or move (`os.Rename`).  Returns the
destination path and the new filesystem. -/
def pasteEntry (root : FSObj) (e : Entry) (destDir : Path)
    (persist : Bool) : Option (Path × FSObj) :=
  match root.lookup e.current_path with
  | none => none
  | some srcInfo =>
    let destPath := joinBase destDir e.current_path
    if persist then
      match srcInfo with
      | .dir m cs =>
        (copyTree root (.dir m cs) destPath).map fun r => (destPath, r)
      | .symlink _ =>
        (copySymlink root e.current_path destPath).map fun r => (destPath, r)
      | .file _ _ =>
        (copyFile root e.current_path destPath).map fun r => (destPath, r)
    else
      (renameFS root e.current_path destPath).map fun r => (destPath, r)

/-- Model of `updateEntryPath`: re-reads the store, bounds-checks the index, and
rewrites the entry's `current_path` in place. -/
def updateEntryPath (index : Nat) (newPath : Path) (s : Sys) :
    Except CxErr Sys :=
  let clipboard := readClipboard s
  match clipboard.entries[index]? with
  | none => .error (.invalidIndex index)
  | some e =>
    .ok (writeClipboard s
      ⟨clipboard.entries.set index { e with current_path := newPath }⟩)

/-- Model of `removeFromClipboard`: re-reads the store, bounds-checks the index,
and deletes the entry at that index
(`append(entries[:index], entries[index+1:]...)`). -/
def removeFromClipboard (index : Nat) (s : Sys) : Except CxErr Sys :=
  let clipboard := readClipboard s
  match clipboard.entries[index]? with
  | none => .error (.invalidIndex index)
  | some _ =>
    .ok (writeClipboard s ⟨clipboard.entries.eraseIdx index⟩)

/-- Model of `handlePasteAt`: bounds-check the index (the Go `index < 0` branch
is vacuous for `Nat`), `os.Lstat` the entry's current path (fail with
the stale-entry error if it is gone), perform the paste, then either
update the entry in place (copy) or remove it (move). -/
def handlePasteAt (index : Nat) (persist : Bool) (s : Sys) :
    Except CxErr Sys :=
  let pwd := s.cwd
  let clipboard := readClipboard s
  match clipboard.entries[index]? with
  | none => .error (.invalidIndex index)
  | some e =>
    match s.fs.lookup e.current_path with
    | none => .error (.staleEntry e.current_path)
    | some _ =>
      match pasteEntry s.fs e pwd persist with
      | none => .error .ioError
      | some (result, fs2) =>
        let s2 : Sys := { s with fs := fs2 }
        if persist then updateEntryPath index result s2
        else removeFromClipboard index s2

/-- Model of `handlePaste`: fail on an empty clipboard, `os.Lstat` the most
recent entry's current path (fail with the stale-entry error if gone),
then delegate to `handlePasteAt` at the last index. -/
def handlePaste (persist : Bool) (s : Sys) : Except CxErr Sys :=
  let clipboard := readClipboard s
  match clipboard.entries.getLast? with
  | none => .error .emptyClipboard
  | some e =>
    match s.fs.lookup e.current_path with
    | none => .error (.staleEntry e.current_path)
    | some _ => handlePasteAt (clipboard.entries.length - 1) persist s

/-- JSON values, restricted to the fragment the store schema uses
(strings, arrays, objects). -/
inductive Json where
  | str (s : String)
  | arr (elems : List Json)
  | obj (fields : List (String × Json))

/-- Split a character list at every slash. -/
def splitSlash : List Char → List (List Char)
  | [] => [[]]
  | c :: cs =>
    match splitSlash cs with
    | [] => [[]]
    | w :: ws => if c = '/' then [] :: w :: ws else (c :: w) :: ws

/-- Parse a rooted path string back into components. -/
def parsePath (s : String) : Option Path :=
  match s.data with
  | '/' :: cs =>
    match cs with
    | [] => some []
    | _ :: _ => some ((splitSlash cs).map fun w => String.mk w)
  | _ => none

/-- The JSON object `json.Marshal` produces for one `Entry`
(`original_path`, `current_path`, `timestamp`, all strings). -/
def marshalEntry (e : Entry) : Json :=
  .obj [("original_path", .str (renderPath e.original_path)),
        ("current_path", .str (renderPath e.current_path)),
        ("timestamp", .str e.timestamp)]

/-- Decode one entry object. -/
def unmarshalEntry : Json → Option Entry
  | .obj [("original_path", .str o), ("current_path", .str c),
          ("timestamp", .str t)] =>
    match parsePath o, parsePath c with
    | some po, some pc => some ⟨po, pc, t⟩
    | _, _ => none
  | _ => none

/-- Decode a list of entry objects, failing if any element fails. -/
def unmarshalEntries : List Json → Option (List Entry)
  | [] => some []
  | j :: js =>
    match unmarshalEntry j, unmarshalEntries js with
    | some e, some es => some (e :: es)
    | _, _ => none

/-- The JSON value `writeClipboard` serialises to the store file
(`{"entries": [...]}`), modelling `json.MarshalIndent` at the value
level (whitespace is not modelled). -/
def marshalClipboard (c : Clipboard) : Json :=
  .obj [("entries", .arr (c.entries.map marshalEntry))]

/-- The parse `readClipboard` performs on the store file, modelling
`json.Unmarshal` at the value level. -/
def unmarshalClipboard : Json → Option Clipboard
  | .obj [("entries", .arr js)] =>
    (unmarshalEntries js).map fun es => ⟨es⟩
  | _ => none

/-- A path component that renders unambiguously: nonempty and free of
slashes (true of every component `filepath.Abs` can produce). -/
def validCompB (c : String) : Bool :=
  !c.isEmpty && !c.data.contains '/'

/-- Component-wise validity of a path. -/
def validPathB (p : Path) : Bool := p.all validCompB

/-- Validity of both paths of an entry. -/
def validEntryB (e : Entry) : Bool :=
  validPathB e.original_path && validPathB e.current_path

/-- Validity of every entry of a clipboard: exactly the clipboards that
correspond to real stores (Go path strings are arbitrary; the component
model needs nonempty slash-free components). -/
def validClipboardB (c : Clipboard) : Bool := c.entries.all validEntryB

/-- Two paths neither of which lies on the other's spine: operations at
one cannot be observed at the other. -/
def Diverges (p q : Path) : Prop := ¬ p <+: q ∧ ¬ q <+: p

/-- Membership of a (name, object) pair among directory children. -/
def childMem (n : String) (c : FSObj) : FSChildren → Prop
  | .nil => False
  | .node k v rest => (k = n ∧ v = c) ∨ childMem n c rest

/-- Whether some child bears the given name. -/
def hasName : FSChildren → String → Bool
  | .nil, _ => false
  | .node k _ rest, n => k == n || hasName rest n

mutual
/-- Real directory listings never repeat a name; this well-formedness
predicate (no duplicate sibling names, recursively) captures that. -/
def wellNamedB : FSObj → Bool
  | .file _ _ => true
  | .symlink _ => true
  | .dir _ cs => wellNamedKids cs

/-- Sibling lists with pairwise distinct names, recursively. -/
def wellNamedKids : FSChildren → Bool
  | .nil => true
  | .node n c rest => !hasName rest n && wellNamedB c && wellNamedKids rest
end

/-- What every write primitive rooted at `d` guarantees: paths diverging
from `d` are untouched, directories on the spine of `d` keep their mode,
and no existing object disappears. -/
def WriteSpec (r r2 : FSObj) (d : Path) : Prop :=
  (∀ q, Diverges q d → r2.lookup q = r.lookup q) ∧
  (∀ q m cs, q <+: d → r.lookup q = some (.dir m cs) →
    ∃ cs2, r2.lookup q = some (.dir m cs2)) ∧
  (∀ q, ((r : FSObj).lookup q).isSome → (r2.lookup q).isSome)

/-- What the child loop of `copyDir` guarantees: writes happen only
inside the subtrees `d ++ [name]` of the listed children. -/
def KidsSpec (r r2 : FSObj) (d : Path) (cs : FSChildren) : Prop :=
  (∀ q, (∀ n c, childMem n c cs → Diverges q (d ++ [n])) →
    r2.lookup q = r.lookup q) ∧
  (∀ q m cs0, q <+: d → r.lookup q = some (.dir m cs0) →
    ∃ cs1, r2.lookup q = some (.dir m cs1)) ∧
  (∀ q, ((r : FSObj).lookup q).isSome → (r2.lookup q).isSome)


/-- The `Lstat` result at a path in the filesystem a successful
operation leaves behind (`none` when the operation failed). -/
def lookupAfter (r : Except CxErr Sys) (p : Path) : Option (Option FSObj) :=
  match r with
  | .ok s2 => some (s2.fs.lookup p)
  | .error _ => none

/-- The preconditions under which `cutFile` succeeds on a path: the path
exists, and unless it is itself a symlink it is readable. -/
def cutOkB (fs : FSObj) (cwd : Path) (p : RawPath) : Bool :=
  match fs.lookup (filepathAbs cwd p) with
  | some (.symlink _) => true
  | some o => canRead o
  | none => false


/-- The empty path lies at the start of every path (alias kept local so
call sites read uniformly). -/
theorem nilPref {α : Type} (l : List α) : [] <+: l := List.nil_prefix

/-- Two lists that share an extension are comparable (alias of the
library fact, kept local). -/
theorem prefTotal {α : Type} {l1 l2 l3 : List α} (h1 : l1 <+: l3)
    (h2 : l2 <+: l3) : l1 <+: l2 ∨ l2 <+: l1 :=
  List.prefix_or_prefix_of_prefix h1 h2

theorem Diverges.ne {p q : Path} (h : Diverges p q) : p ≠ q :=
  fun e => h.1 (e ▸ List.prefix_refl p)

theorem Diverges.symm {p q : Path} (h : Diverges p q) : Diverges q p :=
  ⟨h.2, h.1⟩

theorem diverges_append {q d : Path} (h : Diverges q d) (s : Path) :
    Diverges q (d ++ s) := by
  constructor
  · intro hqd
    rcases prefTotal hqd (List.prefix_append d s) with h1 | h1
    · exact h.1 h1
    · exact h.2 h1
  · intro hdq
    exact h.2 ((List.prefix_append d s).trans hdq)

theorem path_cases (p q : Path) : p <+: q ∨ q <+: p ∨ Diverges p q := by
  by_cases h1 : p <+: q
  · exact Or.inl h1
  · by_cases h2 : q <+: p
    · exact Or.inr (Or.inl h2)
    · exact Or.inr (Or.inr ⟨h1, h2⟩)

/-- Structural induction along the sibling list of `FSChildren` (the
mutually defined recursor has several motives, so the `induction` tactic
needs this single-motive principle). -/
theorem kidsInd {motive : FSChildren → Prop} (nil : motive .nil)
    (node : ∀ (n : String) (o : FSObj) (rest : FSChildren),
      motive rest → motive (.node n o rest)) :
    ∀ cs, motive cs
  | .nil => nil
  | .node n o rest => node n o rest (kidsInd nil node rest)

theorem lookupChild_setChild_self (cs : FSChildren) (n : String) (o : FSObj) :
    lookupChild (setChild cs n o) n = some o := by
  induction cs using kidsInd with
  | nil => simp [setChild, lookupChild]
  | node k v rest ih =>
    by_cases h : k = n <;> simp [setChild, lookupChild, h, ih]

theorem lookupChild_setChild_ne (cs : FSChildren) {n k : String} (o : FSObj)
    (h : k ≠ n) : lookupChild (setChild cs n o) k = lookupChild cs k := by
  induction cs using kidsInd with
  | nil => simp [setChild, lookupChild, Ne.symm h]
  | node k2 v rest ih =>
    by_cases h2 : k2 = n
    · subst h2
      simp [setChild, lookupChild, Ne.symm h]
    · by_cases h3 : k2 = k <;>
        simp [setChild, lookupChild, h, h2, h3, ih]

theorem lookupChild_removeChild_self (cs : FSChildren) (n : String) :
    lookupChild (removeChild cs n) n = none := by
  induction cs using kidsInd with
  | nil => simp [removeChild, lookupChild]
  | node k v rest ih =>
    by_cases h : k = n <;> simp [removeChild, lookupChild, h, ih]

theorem lookupChild_removeChild_ne (cs : FSChildren) {n k : String}
    (h : k ≠ n) : lookupChild (removeChild cs n) k = lookupChild cs k := by
  induction cs using kidsInd with
  | nil => simp [removeChild, lookupChild]
  | node k2 v rest ih =>
    by_cases h2 : k2 = n
    · subst h2
      simp [removeChild, lookupChild, Ne.symm h, ih]
    · by_cases h3 : k2 = k <;>
        simp [removeChild, lookupChild, h, h2, h3, ih]

theorem lookup_append (o : FSObj) (p q : Path) :
    o.lookup (p ++ q) = (o.lookup p).bind fun r => r.lookup q := by
  induction p generalizing o with
  | nil => simp [FSObj.lookup]
  | cons n p ih =>
    cases o with
    | file content mode => simp [FSObj.lookup]
    | symlink t => simp [FSObj.lookup]
    | dir m cs =>
      simp only [List.cons_append, FSObj.lookup]
      cases lookupChild cs n with
      | none => simp
      | some c => simpa using ih c

theorem set_some_lookup {r r2 o : FSObj} {p : Path}
    (h : FSObj.set r p o = some r2) (q : Path) :
    r2.lookup (p ++ q) = o.lookup q := by
  induction p generalizing r r2 with
  | nil =>
    simp [FSObj.set] at h
    subst h
    simp
  | cons n p ih =>
    cases r with
    | file content mode => simp [FSObj.set] at h
    | symlink t => simp [FSObj.set] at h
    | dir m cs =>
      cases p with
      | nil =>
        simp [FSObj.set] at h
        subst h
        simp [FSObj.lookup, lookupChild_setChild_self]
      | cons n2 p2 =>
        simp only [FSObj.set] at h
        cases hc : lookupChild cs n with
        | none => rw [hc] at h; simp at h
        | some c =>
          rw [hc] at h
          rw [Option.map_eq_some'] at h
          obtain ⟨c2, hc2, rfl⟩ := h
          simp only [List.cons_append, FSObj.lookup,
            lookupChild_setChild_self]
          exact ih hc2

theorem set_some_lookup_self {r r2 o : FSObj} {p : Path}
    (h : FSObj.set r p o = some r2) : r2.lookup p = some o := by
  have := set_some_lookup h []
  simpa [FSObj.lookup] using this

theorem set_lookup_div {r r2 o : FSObj} {p : Path}
    (h : FSObj.set r p o = some r2) (q : Path) (hq : Diverges p q) :
    r2.lookup q = r.lookup q := by
  induction p generalizing r r2 q with
  | nil => exact absurd (nilPref _) hq.1
  | cons n p ih =>
    cases r with
    | file content mode => simp [FSObj.set] at h
    | symlink t => simp [FSObj.set] at h
    | dir m cs =>
      cases q with
      | nil => exact absurd (nilPref _) hq.2
      | cons k q2 =>
        by_cases hk : k = n
        · subst hk
          have hq2 : Diverges p q2 := by
            constructor
            · intro hx
              exact hq.1 (List.cons_prefix_cons.mpr ⟨rfl, hx⟩)
            · intro hx
              exact hq.2 (List.cons_prefix_cons.mpr ⟨rfl, hx⟩)
          cases p with
          | nil => exact absurd (nilPref _) hq2.1
          | cons n2 p2 =>
            simp only [FSObj.set] at h
            cases hc : lookupChild cs k with
            | none => rw [hc] at h; simp at h
            | some c =>
              rw [hc] at h
              rw [Option.map_eq_some'] at h
              obtain ⟨c2, hc2, rfl⟩ := h
              simp only [FSObj.lookup, lookupChild_setChild_self, hc]
              exact ih hc2 q2 hq2
        · cases p with
          | nil =>
            simp [FSObj.set] at h
            subst h
            simp [FSObj.lookup, lookupChild_setChild_ne _ _ hk]
          | cons n2 p2 =>
            simp only [FSObj.set] at h
            cases hc : lookupChild cs n with
            | none => rw [hc] at h; simp at h
            | some c =>
              rw [hc] at h
              rw [Option.map_eq_some'] at h
              obtain ⟨c2, hc2, rfl⟩ := h
              simp [FSObj.lookup, lookupChild_setChild_ne _ _ hk]

theorem set_lookup_pref_dir {r r2 o : FSObj} {p : Path}
    (h : FSObj.set r p o = some r2) (q : Path) (hq : q <+: p) (hne : q ≠ p)
    {m : Nat} {cs : FSChildren} (hl : r.lookup q = some (.dir m cs)) :
    ∃ cs2, r2.lookup q = some (.dir m cs2) := by
  induction p generalizing r r2 q with
  | nil => exact absurd (List.prefix_nil.mp hq) hne
  | cons n p ih =>
    cases r with
    | file content mode => simp [FSObj.set] at h
    | symlink t => simp [FSObj.set] at h
    | dir m0 cs0 =>
      cases q with
      | nil =>
        have hl2 : FSObj.dir m0 cs0 = FSObj.dir m cs := by
          simpa [FSObj.lookup] using hl
        injection hl2 with hm hcs
        cases p with
        | nil =>
          simp [FSObj.set] at h
          subst h
          exact ⟨setChild cs0 n o, by simp [FSObj.lookup, hm]⟩
        | cons n2 p2 =>
          simp only [FSObj.set] at h
          cases hc : lookupChild cs0 n with
          | none => rw [hc] at h; simp at h
          | some c =>
            rw [hc] at h
            rw [Option.map_eq_some'] at h
            obtain ⟨c2, hc2, rfl⟩ := h
            exact ⟨setChild cs0 n c2, by simp [FSObj.lookup, hm]⟩
      | cons k q2 =>
        obtain ⟨hk, hq2⟩ := List.cons_prefix_cons.mp hq
        subst hk
        have hne2 : q2 ≠ p := fun e => hne (by rw [e])
        cases p with
        | nil => exact absurd (List.prefix_nil.mp hq2) hne2
        | cons n2 p2 =>
          simp only [FSObj.set] at h
          cases hc : lookupChild cs0 k with
          | none => rw [hc] at h; simp at h
          | some c =>
            rw [hc] at h
            rw [Option.map_eq_some'] at h
            obtain ⟨c2, hc2, rfl⟩ := h
            simp only [FSObj.lookup, hc] at hl
            simp only [FSObj.lookup, lookupChild_setChild_self]
            exact ih hc2 q2 hq2 hne2 hl

theorem set_pref_dir_of_some {r r2 o : FSObj} {p : Path}
    (h : FSObj.set r p o = some r2) (q : Path) (hq : q <+: p)
    (hne : q ≠ p) : ∃ m cs, r.lookup q = some (.dir m cs) := by
  induction p generalizing r r2 q with
  | nil => exact absurd (List.prefix_nil.mp hq) hne
  | cons n p ih =>
    cases r with
    | file content mode => simp [FSObj.set] at h
    | symlink t => simp [FSObj.set] at h
    | dir m0 cs0 =>
      cases q with
      | nil => exact ⟨m0, cs0, rfl⟩
      | cons k q2 =>
        obtain ⟨hk, hq2⟩ := List.cons_prefix_cons.mp hq
        subst hk
        have hne2 : q2 ≠ p := fun e => hne (by rw [e])
        cases p with
        | nil => exact absurd (List.prefix_nil.mp hq2) hne2
        | cons n2 p2 =>
          simp only [FSObj.set] at h
          cases hc : lookupChild cs0 k with
          | none => rw [hc] at h; simp at h
          | some c =>
            rw [hc] at h
            rw [Option.map_eq_some'] at h
            obtain ⟨c2, hc2, rfl⟩ := h
            obtain ⟨m1, cs1, hm⟩ := ih hc2 q2 hq2 hne2
            exact ⟨m1, cs1, by simp [FSObj.lookup, hc, hm]⟩

theorem set_succeeds {r : FSObj} {par : Path} {m : Nat} {cs : FSChildren}
    (h : r.lookup par = some (.dir m cs)) (n : String) (o : FSObj) :
    ∃ r2, FSObj.set r (par ++ [n]) o = some r2 := by
  induction par generalizing r with
  | nil =>
    simp [FSObj.lookup] at h
    subst h
    exact ⟨_, rfl⟩
  | cons k par2 ih =>
    cases r with
    | file content mode => simp [FSObj.lookup] at h
    | symlink t => simp [FSObj.lookup] at h
    | dir m0 cs0 =>
      simp only [FSObj.lookup] at h
      cases hc : lookupChild cs0 k with
      | none => rw [hc] at h; simp at h
      | some c =>
        rw [hc] at h
        cases par2 with
        | nil =>
          simp [FSObj.lookup] at h
          subst h
          refine ⟨.dir m0 (setChild cs0 k (.dir m (setChild cs n o))), ?_⟩
          simp [FSObj.set, hc]
        | cons x xs =>
          obtain ⟨c2, hc2⟩ := ih h
          refine ⟨.dir m0 (setChild cs0 k c2), ?_⟩
          simp only [List.cons_append, FSObj.set, hc]
          rw [show (x :: xs) ++ [n] = x :: (xs ++ [n]) from rfl] at hc2
          simp [hc2]

theorem remove_lookup_self {r r2 : FSObj} {p : Path}
    (h : FSObj.remove r p = some r2) : r2.lookup p = none := by
  induction p generalizing r r2 with
  | nil => simp [FSObj.remove] at h
  | cons n p ih =>
    cases r with
    | file content mode => simp [FSObj.remove] at h
    | symlink t => simp [FSObj.remove] at h
    | dir m cs =>
      cases p with
      | nil =>
        simp only [FSObj.remove] at h
        cases hc : lookupChild cs n with
        | none => rw [hc] at h; simp at h
        | some c =>
          rw [hc] at h
          simp at h
          subst h
          simp [FSObj.lookup, lookupChild_removeChild_self]
      | cons n2 p2 =>
        simp only [FSObj.remove] at h
        cases hc : lookupChild cs n with
        | none => rw [hc] at h; simp at h
        | some c =>
          rw [hc] at h
          rw [Option.map_eq_some'] at h
          obtain ⟨c2, hc2, rfl⟩ := h
          simp only [FSObj.lookup, lookupChild_setChild_self]
          exact ih hc2

theorem remove_lookup_div {r r2 : FSObj} {p : Path}
    (h : FSObj.remove r p = some r2) (q : Path) (hq : Diverges p q) :
    r2.lookup q = r.lookup q := by
  induction p generalizing r r2 q with
  | nil => exact absurd (nilPref _) hq.1
  | cons n p ih =>
    cases r with
    | file content mode => simp [FSObj.remove] at h
    | symlink t => simp [FSObj.remove] at h
    | dir m cs =>
      cases q with
      | nil => exact absurd (nilPref _) hq.2
      | cons k q2 =>
        by_cases hk : k = n
        · subst hk
          have hq2 : Diverges p q2 := by
            constructor
            · intro hx
              exact hq.1 (List.cons_prefix_cons.mpr ⟨rfl, hx⟩)
            · intro hx
              exact hq.2 (List.cons_prefix_cons.mpr ⟨rfl, hx⟩)
          cases p with
          | nil => exact absurd (nilPref _) hq2.1
          | cons n2 p2 =>
            simp only [FSObj.remove] at h
            cases hc : lookupChild cs k with
            | none => rw [hc] at h; simp at h
            | some c =>
              rw [hc] at h
              rw [Option.map_eq_some'] at h
              obtain ⟨c2, hc2, rfl⟩ := h
              simp only [FSObj.lookup, lookupChild_setChild_self, hc]
              exact ih hc2 q2 hq2
        · cases p with
          | nil =>
            simp only [FSObj.remove] at h
            cases hc : lookupChild cs n with
            | none => rw [hc] at h; simp at h
            | some c =>
              rw [hc] at h
              simp at h
              subst h
              simp [FSObj.lookup, lookupChild_removeChild_ne _ hk]
          | cons n2 p2 =>
            simp only [FSObj.remove] at h
            cases hc : lookupChild cs n with
            | none => rw [hc] at h; simp at h
            | some c =>
              rw [hc] at h
              rw [Option.map_eq_some'] at h
              obtain ⟨c2, hc2, rfl⟩ := h
              simp [FSObj.lookup, lookupChild_setChild_ne _ _ hk]

theorem remove_lookup_pref_dir {r r2 : FSObj} {p : Path}
    (h : FSObj.remove r p = some r2) (q : Path) (hq : q <+: p) (hne : q ≠ p)
    {m : Nat} {cs : FSChildren} (hl : r.lookup q = some (.dir m cs)) :
    ∃ cs2, r2.lookup q = some (.dir m cs2) := by
  induction p generalizing r r2 q with
  | nil => exact absurd (List.prefix_nil.mp hq) hne
  | cons n p ih =>
    cases r with
    | file content mode => simp [FSObj.remove] at h
    | symlink t => simp [FSObj.remove] at h
    | dir m0 cs0 =>
      cases q with
      | nil =>
        have hl2 : FSObj.dir m0 cs0 = FSObj.dir m cs := by
          simpa [FSObj.lookup] using hl
        injection hl2 with hm hcs
        cases p with
        | nil =>
          simp only [FSObj.remove] at h
          cases hc : lookupChild cs0 n with
          | none => rw [hc] at h; simp at h
          | some c =>
            rw [hc] at h
            simp at h
            subst h
            exact ⟨removeChild cs0 n, by simp [FSObj.lookup, hm]⟩
        | cons n2 p2 =>
          simp only [FSObj.remove] at h
          cases hc : lookupChild cs0 n with
          | none => rw [hc] at h; simp at h
          | some c =>
            rw [hc] at h
            rw [Option.map_eq_some'] at h
            obtain ⟨c2, hc2, rfl⟩ := h
            exact ⟨setChild cs0 n c2, by simp [FSObj.lookup, hm]⟩
      | cons k q2 =>
        obtain ⟨hk, hq2⟩ := List.cons_prefix_cons.mp hq
        subst hk
        have hne2 : q2 ≠ p := fun e => hne (by rw [e])
        cases p with
        | nil => exact absurd (List.prefix_nil.mp hq2) hne2
        | cons n2 p2 =>
          simp only [FSObj.remove] at h
          cases hc : lookupChild cs0 k with
          | none => rw [hc] at h; simp at h
          | some c =>
            rw [hc] at h
            rw [Option.map_eq_some'] at h
            obtain ⟨c2, hc2, rfl⟩ := h
            simp only [FSObj.lookup, hc] at hl
            simp only [FSObj.lookup, lookupChild_setChild_self]
            exact ih hc2 q2 hq2 hne2 hl

theorem remove_succeeds {r o : FSObj} {p : Path}
    (h : r.lookup p = some o) (hp : p ≠ []) :
    ∃ r2, FSObj.remove r p = some r2 := by
  induction p generalizing r with
  | nil => exact absurd rfl hp
  | cons n p ih =>
    cases r with
    | file content mode => simp [FSObj.lookup] at h
    | symlink t => simp [FSObj.lookup] at h
    | dir m cs =>
      simp only [FSObj.lookup] at h
      cases hc : lookupChild cs n with
      | none => rw [hc] at h; simp at h
      | some c =>
        rw [hc] at h
        cases p with
        | nil =>
          exact ⟨.dir m (removeChild cs n), by simp [FSObj.remove, hc]⟩
        | cons n2 p2 =>
          obtain ⟨c2, hc2⟩ := ih h (by simp)
          exact ⟨.dir m (setChild cs n c2),
            by simp [FSObj.remove, hc, hc2]⟩

theorem mkdirAll_lookup_div {r r2 : FSObj} {p : Path} {mode : Nat}
    (h : mkdirAll r p mode = some r2) (q : Path) (hq : Diverges q p) :
    r2.lookup q = r.lookup q := by
  induction p generalizing r r2 q with
  | nil => exact absurd (nilPref _) hq.2
  | cons n p ih =>
    cases r with
    | file content mode2 => simp [mkdirAll] at h
    | symlink t => simp [mkdirAll] at h
    | dir m cs =>
      cases q with
      | nil => exact absurd (nilPref _) hq.1
      | cons k q2 =>
        by_cases hk : k = n
        · subst hk
          have hq2 : Diverges q2 p := by
            constructor
            · intro hx
              exact hq.1 (List.cons_prefix_cons.mpr ⟨rfl, hx⟩)
            · intro hx
              exact hq.2 (List.cons_prefix_cons.mpr ⟨rfl, hx⟩)
          have hq2ne : q2 ≠ [] := by
            intro he
            subst he
            exact hq.1 (List.cons_prefix_cons.mpr ⟨rfl, nilPref _⟩)
          simp only [mkdirAll] at h
          cases hc : lookupChild cs k with
          | some c =>
            rw [hc] at h
            rw [Option.map_eq_some'] at h
            obtain ⟨c2, hc2, rfl⟩ := h
            simp only [FSObj.lookup, lookupChild_setChild_self, hc]
            exact ih hc2 q2 hq2
          | none =>
            rw [hc] at h
            rw [Option.map_eq_some'] at h
            obtain ⟨c2, hc2, rfl⟩ := h
            have := ih hc2 q2 hq2
            simp only [FSObj.lookup, lookupChild_setChild_self, hc, this]
            cases q2 with
            | nil => exact absurd rfl hq2ne
            | cons x xs => simp [FSObj.lookup, lookupChild]
        · simp only [mkdirAll] at h
          cases hc : lookupChild cs n with
          | some c =>
            rw [hc] at h
            rw [Option.map_eq_some'] at h
            obtain ⟨c2, hc2, rfl⟩ := h
            simp [FSObj.lookup, lookupChild_setChild_ne _ _ hk]
          | none =>
            rw [hc] at h
            rw [Option.map_eq_some'] at h
            obtain ⟨c2, hc2, rfl⟩ := h
            simp [FSObj.lookup, lookupChild_setChild_ne _ _ hk]

theorem mkdirAll_dirAt {r r2 : FSObj} {p : Path} {mode : Nat}
    (h : mkdirAll r p mode = some r2) :
    ∃ m2 cs2, r2.lookup p = some (.dir m2 cs2) ∧
      (r.lookup p = none → m2 = mode ∧ cs2 = .nil) := by
  induction p generalizing r r2 with
  | nil =>
    cases r with
    | file content mode2 => simp [mkdirAll] at h
    | symlink t => simp [mkdirAll] at h
    | dir m cs =>
      simp [mkdirAll] at h
      subst h
      exact ⟨m, cs, rfl, by simp [FSObj.lookup]⟩
  | cons n p ih =>
    cases r with
    | file content mode2 => simp [mkdirAll] at h
    | symlink t => simp [mkdirAll] at h
    | dir m cs =>
      simp only [mkdirAll] at h
      cases hc : lookupChild cs n with
      | some c =>
        rw [hc] at h
        rw [Option.map_eq_some'] at h
        obtain ⟨c2, hc2, rfl⟩ := h
        obtain ⟨m2, cs2, hl, hf⟩ := ih hc2
        refine ⟨m2, cs2, ?_, ?_⟩
        · simp [FSObj.lookup, lookupChild_setChild_self, hl]
        · intro he
          simp only [FSObj.lookup, hc] at he
          exact hf he
      | none =>
        rw [hc] at h
        rw [Option.map_eq_some'] at h
        obtain ⟨c2, hc2, rfl⟩ := h
        cases p with
        | nil =>
          simp [mkdirAll] at hc2
          subst hc2
          exact ⟨mode, .nil, by simp [FSObj.lookup,
            lookupChild_setChild_self], fun _ => ⟨rfl, rfl⟩⟩
        | cons n2 p2 =>
          obtain ⟨m2, cs2, hl, hf⟩ := ih hc2
          refine ⟨m2, cs2, ?_, ?_⟩
          · simp [FSObj.lookup, lookupChild_setChild_self, hl]
          · intro _
            exact hf (by simp [FSObj.lookup, lookupChild])

theorem mkdirAll_pref {r r2 : FSObj} {p : Path} {mode : Nat}
    (h : mkdirAll r p mode = some r2) (q : Path) (hq : q <+: p)
    {m : Nat} {cs : FSChildren} (hl : r.lookup q = some (.dir m cs)) :
    ∃ cs2, r2.lookup q = some (.dir m cs2) := by
  induction p generalizing r r2 q with
  | nil =>
    have he : q = [] := List.prefix_nil.mp hq
    subst he
    cases r with
    | file content mode2 => simp [mkdirAll] at h
    | symlink t => simp [mkdirAll] at h
    | dir m0 cs0 =>
      have hl2 : FSObj.dir m0 cs0 = FSObj.dir m cs := by
        simpa [FSObj.lookup] using hl
      injection hl2 with hm hcs
      simp [mkdirAll] at h
      subst h
      exact ⟨cs0, by simp [FSObj.lookup, hm]⟩
  | cons n p ih =>
    cases r with
    | file content mode2 => simp [mkdirAll] at h
    | symlink t => simp [mkdirAll] at h
    | dir m0 cs0 =>
      simp only [mkdirAll] at h
      cases q with
      | nil =>
        have hl2 : FSObj.dir m0 cs0 = FSObj.dir m cs := by
          simpa [FSObj.lookup] using hl
        injection hl2 with hm hcs
        cases hc : lookupChild cs0 n with
        | some c =>
          rw [hc] at h
          rw [Option.map_eq_some'] at h
          obtain ⟨c2, hc2, rfl⟩ := h
          exact ⟨setChild cs0 n c2, by simp [FSObj.lookup, hm]⟩
        | none =>
          rw [hc] at h
          rw [Option.map_eq_some'] at h
          obtain ⟨c2, hc2, rfl⟩ := h
          exact ⟨setChild cs0 n c2, by simp [FSObj.lookup, hm]⟩
      | cons k q2 =>
        obtain ⟨hk, hq2⟩ := List.cons_prefix_cons.mp hq
        subst hk
        cases hc : lookupChild cs0 k with
        | some c =>
          rw [hc] at h
          rw [Option.map_eq_some'] at h
          obtain ⟨c2, hc2, rfl⟩ := h
          simp only [FSObj.lookup, hc] at hl
          obtain ⟨cs2, hl2⟩ := ih hc2 q2 hq2 hl
          exact ⟨cs2, by simp [FSObj.lookup,
            lookupChild_setChild_self, hl2]⟩
        | none =>
          rw [hc] at h
          simp only [FSObj.lookup, hc] at hl
          exact Option.noConfusion hl

theorem mkdirAll_preserves {r r2 : FSObj} {p : Path} {mode : Nat}
    (h : mkdirAll r p mode = some r2) (q : Path)
    (hs : (r.lookup q).isSome) : (r2.lookup q).isSome := by
  induction p generalizing r r2 q with
  | nil =>
    cases r with
    | file content mode2 => simp [mkdirAll] at h
    | symlink t => simp [mkdirAll] at h
    | dir m cs =>
      simp [mkdirAll] at h
      subst h
      exact hs
  | cons n p ih =>
    cases r with
    | file content mode2 => simp [mkdirAll] at h
    | symlink t => simp [mkdirAll] at h
    | dir m cs =>
      simp only [mkdirAll] at h
      cases q with
      | nil => simp [FSObj.lookup]
      | cons k q2 =>
        by_cases hk : k = n
        · subst hk
          cases hc : lookupChild cs k with
          | some c =>
            rw [hc] at h
            rw [Option.map_eq_some'] at h
            obtain ⟨c2, hc2, rfl⟩ := h
            simp only [FSObj.lookup, hc] at hs
            simp only [FSObj.lookup, lookupChild_setChild_self]
            exact ih hc2 q2 hs
          | none =>
            rw [hc] at h
            simp only [FSObj.lookup, hc] at hs
            simp at hs
        · cases hc : lookupChild cs n with
          | some c =>
            rw [hc] at h
            rw [Option.map_eq_some'] at h
            obtain ⟨c2, hc2, rfl⟩ := h
            simpa [FSObj.lookup, lookupChild_setChild_ne _ _ hk] using hs
          | none =>
            rw [hc] at h
            rw [Option.map_eq_some'] at h
            obtain ⟨c2, hc2, rfl⟩ := h
            simpa [FSObj.lookup, lookupChild_setChild_ne _ _ hk] using hs

theorem writeSpec_trans {r r1 r2 : FSObj} {d : Path}
    (h1 : WriteSpec r r1 d) (h2 : WriteSpec r1 r2 d) : WriteSpec r r2 d :=
  ⟨fun q hq => (h2.1 q hq).trans (h1.1 q hq),
   fun q m cs hq hl => (h1.2.1 q m cs hq hl).elim fun cs1 hl1 =>
     h2.2.1 q m cs1 hq hl1,
   fun q hs => h2.2.2 q (h1.2.2 q hs)⟩

theorem writeSpec_weaken {r r2 : FSObj} {d s : Path}
    (h : WriteSpec r r2 (d ++ s)) : WriteSpec r r2 d :=
  ⟨fun q hq => h.1 q (diverges_append hq s),
   fun q m cs hq hl => h.2.1 q m cs (hq.trans (List.prefix_append d s)) hl,
   h.2.2⟩

theorem mkdirAll_writeSpec {r r2 : FSObj} {p : Path} {mode : Nat}
    (h : mkdirAll r p mode = some r2) : WriteSpec r r2 p :=
  ⟨fun q hq => mkdirAll_lookup_div h q hq,
   fun q _ _ hq hl => mkdirAll_pref h q hq hl,
   fun q => mkdirAll_preserves h q⟩

theorem set_writeSpec {r r2 o : FSObj} {d : Path}
    (h : FSObj.set r d o = some r2)
    (hnd : ∀ m cs, r.lookup d ≠ some (.dir m cs)) : WriteSpec r r2 d := by
  refine ⟨fun q hq => set_lookup_div h q hq.symm, ?_, ?_⟩
  · intro q m cs hq hl
    by_cases he : q = d
    · subst he
      exact absurd hl (hnd m cs)
    · exact set_lookup_pref_dir h q hq he hl
  · intro q hs
    rcases path_cases d q with hdq | hqd | hdv
    · obtain ⟨e, rfl⟩ := hdq
      cases e with
      | nil =>
        rw [List.append_nil]
        simp [set_some_lookup_self h]
      | cons x xs =>
        rw [lookup_append] at hs
        cases hld : r.lookup d with
        | none =>
          rw [hld] at hs
          simp at hs
        | some od =>
          rw [hld] at hs
          cases od with
          | dir m cs => exact absurd hld (hnd m cs)
          | file content mode => simp [FSObj.lookup] at hs
          | symlink t => simp [FSObj.lookup] at hs
    · by_cases he : q = d
      · subst he
        simp [set_some_lookup_self h]
      · obtain ⟨m, cs, hl⟩ := set_pref_dir_of_some h q hqd he
        obtain ⟨cs2, hl2⟩ := set_lookup_pref_dir h q hqd he hl
        simp [hl2]
    · rw [set_lookup_div h q hdv]
      exact hs

theorem copyFileObj_inv {r r2 c : FSObj} {d : Path}
    (h : copyFileObj r c d = some r2) :
    ∃ content mode, (∀ m cs, r.lookup d ≠ some (.dir m cs)) ∧
      FSObj.set r d (.file content mode) = some r2 := by
  cases c with
  | file content mode =>
    simp only [copyFileObj] at h
    cases hld : r.lookup d with
    | none =>
      rw [hld] at h
      exact ⟨content, mode, by simp [hld], h⟩
    | some od =>
      rw [hld] at h
      cases od with
      | dir m cs => simp at h
      | file c2 m2 => exact ⟨content, mode, by simp [hld], h⟩
      | symlink t => exact ⟨content, mode, by simp [hld], h⟩
  | symlink t =>
    simp only [copyFileObj] at h
    cases hres : resolveObj r t 40 with
    | none =>
      rw [hres] at h
      simp at h
    | some ro =>
      rw [hres] at h
      cases ro with
      | file content mode =>
        cases hld : r.lookup d with
        | none =>
          rw [hld] at h
          exact ⟨content, mode, by simp [hld], h⟩
        | some od =>
          rw [hld] at h
          cases od with
          | dir m cs => simp at h
          | file c2 m2 => exact ⟨content, mode, by simp [hld], h⟩
          | symlink t2 => exact ⟨content, mode, by simp [hld], h⟩
      | symlink t2 => simp at h
      | dir m cs => simp at h
  | dir m cs => simp [copyFileObj] at h

theorem copySymlink_inv {r r2 : FSObj} {src d : Path}
    (h : copySymlink r src d = some r2) :
    ∃ t, r.lookup src = some (.symlink t) ∧ r.lookup d = none ∧
      FSObj.set r d (.symlink t) = some r2 := by
  simp only [copySymlink] at h
  cases hls : r.lookup src with
  | none =>
    rw [hls] at h
    simp at h
  | some o =>
    rw [hls] at h
    cases o with
    | symlink t =>
      cases hld : r.lookup d with
      | some o2 =>
        rw [hld] at h
        simp at h
      | none =>
        rw [hld] at h
        exact ⟨t, rfl, rfl, h⟩
    | file content mode => simp at h
    | dir m cs => simp at h

theorem kidsSpec_writeSpec {r r2 : FSObj} {d : Path} {cs : FSChildren}
    (h : KidsSpec r r2 d cs) : WriteSpec r r2 d :=
  ⟨fun q hq => h.1 q fun n _ _ => diverges_append hq [n], h.2.1, h.2.2⟩

theorem copyTree_inv {r r2 o : FSObj} {d : Path}
    (h : copyTree r o d = some r2) :
    ∃ m cs rm, o = FSObj.dir m cs ∧ mkdirAll r d m = some rm ∧
      copyKids rm cs d = some r2 := by
  cases o with
  | file content mode => simp [copyTree] at h
  | symlink t => simp [copyTree] at h
  | dir m cs =>
    simp only [copyTree] at h
    cases hmk : mkdirAll r d m with
    | none =>
      rw [hmk] at h
      simp at h
    | some rm =>
      rw [hmk] at h
      replace h : copyKids rm cs d = some r2 := h
      exact ⟨m, cs, rm, rfl, hmk, h⟩

theorem copyKids_spec :
    ∀ (N : Nat) (cs : FSChildren) (r d r2 : _), sizeOf cs ≤ N →
      copyKids r cs d = some r2 → KidsSpec r r2 d cs := by
  intro N
  induction N with
  | zero =>
    intro cs r d r2 hsz
    cases cs <;> simp_arith at hsz
  | succ N ihN =>
    intro cs r d r2 hsz h
    cases cs with
    | nil =>
      simp [copyKids] at h
      subst h
      exact ⟨fun _ _ => rfl, fun q m cs0 _ hl => ⟨cs0, hl⟩, fun _ hs => hs⟩
    | node n c rest =>
      have hszc : sizeOf c ≤ N := by
        simp_arith [FSChildren.node.sizeOf_spec] at hsz
        omega
      have hszr : sizeOf rest ≤ N := by
        simp_arith [FSChildren.node.sizeOf_spec] at hsz
        omega
      have main : ∀ r1, WriteSpec r r1 (d ++ [n]) →
          copyKids r1 rest d = some r2 → KidsSpec r r2 d (.node n c rest) := by
        intro r1 w1 hrest
        have srest : KidsSpec r1 r2 d rest := ihN rest r1 d r2 hszr hrest
        refine ⟨?_, ?_, ?_⟩
        · intro q hq
          have h1 : r2.lookup q = r1.lookup q :=
            srest.1 q fun n1 c1 hm => hq n1 c1 (Or.inr hm)
          have h2 : r1.lookup q = r.lookup q :=
            w1.1 q (hq n c (Or.inl ⟨rfl, rfl⟩))
          exact h1.trans h2
        · intro q m cs0 hq hl
          obtain ⟨cs1, hl1⟩ :=
            (writeSpec_weaken w1).2.1 q m cs0 hq hl
          exact srest.2.1 q m cs1 hq hl1
        · intro q hs
          exact srest.2.2 q (w1.2.2 q hs)
      cases c with
      | dir m2 cs2 =>
        simp only [copyKids] at h
        cases ht : copyTree r (.dir m2 cs2) (d ++ [n]) with
        | none =>
          rw [ht] at h
          simp at h
        | some r1 =>
          rw [ht] at h
          replace h : copyKids r1 rest d = some r2 := h
          have hszc2 : sizeOf cs2 ≤ N := by
            simp_arith [FSObj.dir.sizeOf_spec] at hszc
            omega
          obtain ⟨m9, cs9, rm, heq, hmk, hk2⟩ := copyTree_inv ht
          injection heq with hm9 hcs9
          subst hm9
          subst hcs9
          have w1 : WriteSpec r r1 (d ++ [n]) :=
            writeSpec_trans (mkdirAll_writeSpec hmk)
              (kidsSpec_writeSpec (ihN cs2 rm (d ++ [n]) r1 hszc2 hk2))
          exact main r1 w1 h
      | file content mode =>
        simp only [copyKids] at h
        cases hcf : copyFileObj r (.file content mode) (d ++ [n]) with
        | none =>
          rw [hcf] at h
          simp at h
        | some r1 =>
          rw [hcf] at h
          replace h : copyKids r1 rest d = some r2 := h
          obtain ⟨c2, m3, hnd, hset⟩ := copyFileObj_inv hcf
          exact main r1 (set_writeSpec hset hnd) h
      | symlink t =>
        simp only [copyKids] at h
        cases hcf : copyFileObj r (.symlink t) (d ++ [n]) with
        | none =>
          rw [hcf] at h
          simp at h
        | some r1 =>
          rw [hcf] at h
          replace h : copyKids r1 rest d = some r2 := h
          obtain ⟨c2, m3, hnd, hset⟩ := copyFileObj_inv hcf
          exact main r1 (set_writeSpec hset hnd) h

theorem copyKids_writeSpec {r r2 : FSObj} {d : Path} {cs : FSChildren}
    (h : copyKids r cs d = some r2) : WriteSpec r r2 d :=
  kidsSpec_writeSpec (copyKids_spec (sizeOf cs) cs r d r2 (Nat.le_refl _) h)

theorem copyTree_writeSpec {r r2 o : FSObj} {d : Path}
    (h : copyTree r o d = some r2) : WriteSpec r r2 d := by
  obtain ⟨m, cs, rm, rfl, hmk, hkids⟩ := copyTree_inv h
  exact writeSpec_trans (mkdirAll_writeSpec hmk) (copyKids_writeSpec hkids)

theorem copyTree_dst_dir {r r2 o : FSObj} {d : Path}
    (h : copyTree r o d = some r2) :
    ∃ m2 cs2, r2.lookup d = some (.dir m2 cs2) := by
  obtain ⟨m, cs, rm, rfl, hmk, hkids⟩ := copyTree_inv h
  obtain ⟨m2, cs2, hl, _⟩ := mkdirAll_dirAt hmk
  obtain ⟨cs3, hl3⟩ :=
    (copyKids_writeSpec hkids).2.1 d m2 cs2 (List.prefix_refl d) hl
  exact ⟨m2, cs3, hl3⟩

theorem copyFile_inv {r r2 : FSObj} {src d : Path}
    (h : copyFile r src d = some r2) :
    ∃ content mode, (∀ m cs, r.lookup d ≠ some (.dir m cs)) ∧
      FSObj.set r d (.file content mode) = some r2 := by
  simp only [copyFile] at h
  cases hres : resolveObj r src 40 with
  | none =>
    rw [hres] at h
    simp at h
  | some ro =>
    rw [hres] at h
    cases ro with
    | file content mode =>
      cases hld : r.lookup d with
      | none =>
        rw [hld] at h
        exact ⟨content, mode, by simp [hld], h⟩
      | some od =>
        rw [hld] at h
        cases od with
        | dir m cs => simp at h
        | file c2 m2 => exact ⟨content, mode, by simp [hld], h⟩
        | symlink t => exact ⟨content, mode, by simp [hld], h⟩
    | symlink t => simp at h
    | dir m cs => simp at h

theorem renameFS_succeeds {root o : FSObj} {src cwd : Path} {b : String}
    (ho : root.lookup src = some o) {m : Nat} {cs : FSChildren}
    (hcwd : root.lookup cwd = some (.dir m cs))
    (hdiv1 : ¬ src <+: cwd ++ [b]) (hdiv2 : ¬ (cwd ++ [b]) <+: src)
    (hok : renameOverOk o (root.lookup (cwd ++ [b])) = true) :
    ∃ fs2, renameFS root src (cwd ++ [b]) = some fs2 ∧
      fs2.lookup (cwd ++ [b]) = some o ∧ fs2.lookup src = none := by
  have hsrcne : src ≠ [] := by
    rintro rfl
    exact hdiv1 (nilPref _)
  have hne : src ≠ cwd ++ [b] := by
    intro he
    exact hdiv1 (he ▸ List.prefix_refl src)
  obtain ⟨r1, hr1⟩ := remove_succeeds ho hsrcne
  have hcwd1 : ∃ cs2, r1.lookup cwd = some (.dir m cs2) := by
    rcases path_cases src cwd with hpc | hcp | hdv
    · exact absurd (hpc.trans (List.prefix_append _ _)) hdiv1
    · by_cases he : cwd = src
      · exfalso
        apply hdiv1
        rw [← he]
        exact List.prefix_append _ _
      · exact remove_lookup_pref_dir hr1 cwd hcp he hcwd
    · rw [remove_lookup_div hr1 cwd hdv]
      exact ⟨cs, hcwd⟩
  obtain ⟨cs2, hc2⟩ := hcwd1
  obtain ⟨fs2, hset⟩ := set_succeeds hc2 b o
  refine ⟨fs2, ?_, set_some_lookup_self hset, ?_⟩
  · simp only [renameFS, ho]
    rw [if_neg hne, if_pos hok, hr1]
    exact hset
  · rw [set_lookup_div hset src ⟨hdiv2, hdiv1⟩]
    exact remove_lookup_self hr1

theorem pasteEntry_res {root fs2 : FSObj} {e : Entry} {destDir res : Path}
    {persist : Bool}
    (h : pasteEntry root e destDir persist = some (res, fs2)) :
    res = joinBase destDir e.current_path ∧
    ∃ srcInfo, root.lookup e.current_path = some srcInfo := by
  simp only [pasteEntry] at h
  cases hls : root.lookup e.current_path with
  | none =>
    rw [hls] at h
    simp at h
  | some srcInfo =>
    rw [hls] at h
    refine ⟨?_, srcInfo, rfl⟩
    cases persist with
    | false =>
      replace h : Option.map
          (fun r => (joinBase destDir e.current_path, r))
          (renameFS root e.current_path
            (joinBase destDir e.current_path)) = some (res, fs2) := h
      rw [Option.map_eq_some'] at h
      obtain ⟨r, _, heq⟩ := h
      injection heq with h1 h2
      exact h1.symm
    | true =>
      cases srcInfo with
      | dir m cs =>
        replace h : Option.map
            (fun r => (joinBase destDir e.current_path, r))
            (copyTree root (.dir m cs)
              (joinBase destDir e.current_path)) = some (res, fs2) := h
        rw [Option.map_eq_some'] at h
        obtain ⟨r, _, heq⟩ := h
        injection heq with h1 h2
        exact h1.symm
      | symlink t =>
        replace h : Option.map
            (fun r => (joinBase destDir e.current_path, r))
            (copySymlink root e.current_path
              (joinBase destDir e.current_path)) = some (res, fs2) := h
        rw [Option.map_eq_some'] at h
        obtain ⟨r, _, heq⟩ := h
        injection heq with h1 h2
        exact h1.symm
      | file content mode =>
        replace h : Option.map
            (fun r => (joinBase destDir e.current_path, r))
            (copyFile root e.current_path
              (joinBase destDir e.current_path)) = some (res, fs2) := h
        rw [Option.map_eq_some'] at h
        obtain ⟨r, _, heq⟩ := h
        injection heq with h1 h2
        exact h1.symm

theorem pasteEntry_move_inv {root fs2 : FSObj} {e : Entry}
    {destDir res : Path}
    (h : pasteEntry root e destDir false = some (res, fs2)) :
    renameFS root e.current_path (joinBase destDir e.current_path) =
      some fs2 := by
  simp only [pasteEntry] at h
  cases hls : root.lookup e.current_path with
  | none =>
    rw [hls] at h
    simp at h
  | some srcInfo =>
    rw [hls] at h
    replace h : Option.map
        (fun r => (joinBase destDir e.current_path, r))
        (renameFS root e.current_path
          (joinBase destDir e.current_path)) = some (res, fs2) := h
    rw [Option.map_eq_some'] at h
    obtain ⟨r, hr, heq⟩ := h
    injection heq with h1 h2
    rw [← h2]
    exact hr

theorem pasteEntry_copy_spec {root fs2 : FSObj} {e : Entry}
    {destDir res : Path}
    (h : pasteEntry root e destDir true = some (res, fs2)) :
    WriteSpec root fs2 (joinBase destDir e.current_path) ∧
    (fs2.lookup (joinBase destDir e.current_path)).isSome := by
  simp only [pasteEntry] at h
  cases hls : root.lookup e.current_path with
  | none =>
    rw [hls] at h
    simp at h
  | some srcInfo =>
    rw [hls] at h
    cases srcInfo with
    | dir m cs =>
      replace h : Option.map
          (fun r => (joinBase destDir e.current_path, r))
          (copyTree root (.dir m cs)
            (joinBase destDir e.current_path)) = some (res, fs2) := h
      rw [Option.map_eq_some'] at h
      obtain ⟨r, hr, heq⟩ := h
      injection heq with h1 h2
      subst h2
      refine ⟨copyTree_writeSpec hr, ?_⟩
      obtain ⟨m2, cs2, hl⟩ := copyTree_dst_dir hr
      simp [hl]
    | symlink t =>
      replace h : Option.map
          (fun r => (joinBase destDir e.current_path, r))
          (copySymlink root e.current_path
            (joinBase destDir e.current_path)) = some (res, fs2) := h
      rw [Option.map_eq_some'] at h
      obtain ⟨r, hr, heq⟩ := h
      injection heq with h1 h2
      subst h2
      obtain ⟨t2, hls2, hfresh, hset⟩ := copySymlink_inv hr
      refine ⟨set_writeSpec hset (by simp [hfresh]), ?_⟩
      simp [set_some_lookup_self hset]
    | file content mode =>
      replace h : Option.map
          (fun r => (joinBase destDir e.current_path, r))
          (copyFile root e.current_path
            (joinBase destDir e.current_path)) = some (res, fs2) := h
      rw [Option.map_eq_some'] at h
      obtain ⟨r, hr, heq⟩ := h
      injection heq with h1 h2
      subst h2
      obtain ⟨c2, m2, hnd, hset⟩ := copyFile_inv hr
      refine ⟨set_writeSpec hset hnd, ?_⟩
      simp [set_some_lookup_self hset]

theorem pasteEntry_copy_symlink {root fs2 : FSObj} {e : Entry} {t : Path}
    {destDir res : Path}
    (hls : root.lookup e.current_path = some (.symlink t))
    (h : pasteEntry root e destDir true = some (res, fs2)) :
    fs2.lookup (joinBase destDir e.current_path) = some (.symlink t) := by
  simp only [pasteEntry, hls] at h
  replace h : Option.map
      (fun r => (joinBase destDir e.current_path, r))
      (copySymlink root e.current_path
        (joinBase destDir e.current_path)) = some (res, fs2) := h
  rw [Option.map_eq_some'] at h
  obtain ⟨r, hr, heq⟩ := h
  injection heq with h1 h2
  subst h2
  obtain ⟨t2, hls2, hfresh, hset⟩ := copySymlink_inv hr
  rw [hls] at hls2
  injection hls2 with hlt
  injection hlt with ht2
  rw [ht2]
  exact set_some_lookup_self hset

theorem pasteEntry_move_run {root fs2 o : FSObj} {e : Entry}
    {destDir : Path}
    (ho : root.lookup e.current_path = some o)
    (hrn : renameFS root e.current_path
      (joinBase destDir e.current_path) = some fs2) :
    pasteEntry root e destDir false =
      some (joinBase destDir e.current_path, fs2) := by
  simp only [pasteEntry, ho]
  show Option.map (fun r => (joinBase destDir e.current_path, r))
      (renameFS root e.current_path (joinBase destDir e.current_path)) =
    some (joinBase destDir e.current_path, fs2)
  rw [hrn]
  rfl

theorem pasteEntry_symlink_run {root fs2 : FSObj} {e : Entry} {t : Path}
    {destDir : Path}
    (ho : root.lookup e.current_path = some (.symlink t))
    (hcp : copySymlink root e.current_path
      (joinBase destDir e.current_path) = some fs2) :
    pasteEntry root e destDir true =
      some (joinBase destDir e.current_path, fs2) := by
  simp only [pasteEntry, ho]
  show Option.map (fun r => (joinBase destDir e.current_path, r))
      (copySymlink root e.current_path
        (joinBase destDir e.current_path)) =
    some (joinBase destDir e.current_path, fs2)
  rw [hcp]
  rfl

theorem updateEntryPath_run {i : Nat} {s : Sys} {e : Entry} {res : Path}
    (he : s.store.entries[i]? = some e) :
    updateEntryPath i res s = .ok (writeClipboard s
      ⟨s.store.entries.set i { e with current_path := res }⟩) := by
  simp only [updateEntryPath, readClipboard, he]

theorem removeFromClipboard_run {i : Nat} {s : Sys} {e : Entry}
    (he : s.store.entries[i]? = some e) :
    removeFromClipboard i s =
      .ok (writeClipboard s ⟨s.store.entries.eraseIdx i⟩) := by
  simp only [removeFromClipboard, readClipboard, he]

theorem handlePasteAt_run {i : Nat} {persist : Bool} {s : Sys} {e : Entry}
    {o fs2 : FSObj} {res : Path}
    (he : s.store.entries[i]? = some e)
    (ho : s.fs.lookup e.current_path = some o)
    (hp : pasteEntry s.fs e s.cwd persist = some (res, fs2)) :
    handlePasteAt i persist s =
      if persist then updateEntryPath i res { s with fs := fs2 }
      else removeFromClipboard i { s with fs := fs2 } := by
  simp only [handlePasteAt, readClipboard, he, ho, hp]

theorem handlePaste_run {persist : Bool} {s : Sys} {e : Entry} {o : FSObj}
    (he : s.store.entries.getLast? = some e)
    (ho : s.fs.lookup e.current_path = some o) :
    handlePaste persist s =
      handlePasteAt (s.store.entries.length - 1) persist s := by
  simp only [handlePaste, readClipboard, he, ho]

theorem handlePasteAt_ok_inv {i : Nat} {persist : Bool} {s s2 : Sys}
    (h : handlePasteAt i persist s = .ok s2) :
    ∃ e res fs2, s.store.entries[i]? = some e ∧
      (∃ o, s.fs.lookup e.current_path = some o) ∧
      pasteEntry s.fs e s.cwd persist = some (res, fs2) ∧
      s2.fs = fs2 ∧ s2.cwd = s.cwd ∧
      ((persist = true ∧ s2.store.entries =
          s.store.entries.set i { e with current_path := res }) ∨
       (persist = false ∧
          s2.store.entries = s.store.entries.eraseIdx i)) := by
  cases he : s.store.entries[i]? with
  | none => simp [handlePasteAt, readClipboard, he] at h
  | some e =>
    cases ho : s.fs.lookup e.current_path with
    | none => simp [handlePasteAt, readClipboard, he, ho] at h
    | some o =>
      cases hp : pasteEntry s.fs e s.cwd persist with
      | none => simp [handlePasteAt, readClipboard, he, ho, hp] at h
      | some pr =>
        obtain ⟨res, fs2⟩ := pr
        rw [handlePasteAt_run he ho hp] at h
        refine ⟨e, res, fs2, rfl, ⟨o, ho⟩, hp, ?_⟩
        cases persist with
        | true =>
          replace h : updateEntryPath i res { s with fs := fs2 } = .ok s2 :=
            h
          rw [updateEntryPath_run (s := { s with fs := fs2 }) he] at h
          injection h with h2
          rw [← h2]
          exact ⟨rfl, rfl, Or.inl ⟨rfl, rfl⟩⟩
        | false =>
          replace h :
              removeFromClipboard i { s with fs := fs2 } = .ok s2 := h
          rw [removeFromClipboard_run (s := { s with fs := fs2 }) he] at h
          injection h with h2
          rw [← h2]
          exact ⟨rfl, rfl, Or.inr ⟨rfl, rfl⟩⟩

theorem eraseIdx_concat {α : Type} (es : List α) (e : α) :
    (es ++ [e]).eraseIdx es.length = es := by
  induction es with
  | nil => simp
  | cons a es ih => simp [List.eraseIdx, ih]

theorem splitSlash_ne_nil (l : List Char) : splitSlash l ≠ [] := by
  cases l with
  | nil => simp [splitSlash]
  | cons c cs =>
    simp only [splitSlash]
    cases splitSlash cs with
    | nil => simp
    | cons w ws =>
      by_cases h : c = '/' <;> simp [h]

theorem splitSlash_single {w : List Char} (h : '/' ∉ w) :
    splitSlash w = [w] := by
  induction w with
  | nil => simp [splitSlash]
  | cons c cs ih =>
    have hc : c ≠ '/' := fun e => h (e ▸ List.mem_cons_self c cs)
    have hcs : '/' ∉ cs := fun e => h (List.mem_cons_of_mem c e)
    simp [splitSlash, ih hcs, hc]

theorem splitSlash_sep {w : List Char} (r : List Char) (h : '/' ∉ w) :
    splitSlash (w ++ '/' :: r) = w :: splitSlash r := by
  induction w with
  | nil =>
    simp only [List.nil_append, splitSlash]
    cases hs : splitSlash r with
    | nil => exact absurd hs (splitSlash_ne_nil r)
    | cons w2 ws => simp
  | cons c cs ih =>
    have hc : c ≠ '/' := fun e => h (e ▸ List.mem_cons_self c cs)
    have hcs : '/' ∉ cs := fun e => h (List.mem_cons_of_mem c e)
    simp only [List.cons_append, splitSlash, List.append_eq]
    rw [ih hcs]
    simp [hc]

theorem validComp_data {c : String} (h : validCompB c = true) :
    c.data ≠ [] ∧ '/' ∉ c.data := by
  simp only [validCompB, Bool.and_eq_true, Bool.not_eq_true'] at h
  constructor
  · intro he
    have : c.isEmpty = true := by
      rw [String.isEmpty_iff]
      apply String.ext
      simp [he]
    rw [this] at h
    exact Bool.noConfusion h.1
  · simpa using h.2

theorem splitSlash_pathChars (p : Path) (hv : validPathB p = true)
    {w : List Char} (hw : '/' ∉ w) :
    splitSlash (w ++ pathCharsAux p) = w :: p.map String.data := by
  induction p generalizing w with
  | nil => simp [pathCharsAux, splitSlash_single hw]
  | cons c rest ih =>
    simp only [validPathB, List.all_cons, Bool.and_eq_true] at hv
    obtain ⟨hn, hslash⟩ := validComp_data hv.1
    have hv2 : validPathB rest = true := by
      simp [validPathB, hv.2]
    simp only [pathCharsAux]
    rw [show w ++ '/' :: (c.data ++ pathCharsAux rest) =
      w ++ '/' :: (c.data ++ pathCharsAux rest) from rfl]
    rw [splitSlash_sep (c.data ++ pathCharsAux rest) hw]
    rw [ih hv2 hslash]
    simp

theorem parsePath_renderPath (p : Path) (hv : validPathB p = true) :
    parsePath (renderPath p) = some p := by
  cases p with
  | nil => rfl
  | cons c rest =>
    simp only [validPathB, List.all_cons, Bool.and_eq_true] at hv
    obtain ⟨hn, hslash⟩ := validComp_data hv.1
    have hv2 : validPathB rest = true := by
      simp [validPathB, hv.2]
    have hmapmk : ∀ l : List String,
        (l.map String.data).map (fun w => String.mk w) = l := by
      intro l
      induction l with
      | nil => rfl
      | cons a l2 ih =>
        simp only [List.map_cons, ih]
    simp only [renderPath, parsePath, pathCharsAux]
    cases hcd : c.data ++ pathCharsAux rest with
    | nil =>
      exact absurd (List.append_eq_nil.mp hcd).1 hn
    | cons x xs =>
      have hs := splitSlash_pathChars rest hv2 hslash
      rw [hcd] at hs
      show some ((splitSlash (x :: xs)).map fun w => String.mk w) =
        some (c :: rest)
      rw [hs]
      simp only [List.map_cons, hmapmk]

theorem unmarshalEntry_marshalEntry (e : Entry)
    (hv : validEntryB e = true) :
    unmarshalEntry (marshalEntry e) = some e := by
  simp only [validEntryB, Bool.and_eq_true] at hv
  simp only [marshalEntry, unmarshalEntry,
    parsePath_renderPath e.original_path hv.1,
    parsePath_renderPath e.current_path hv.2]

theorem unmarshalEntries_marshal (l : List Entry)
    (hv : ∀ e ∈ l, validEntryB e = true) :
    unmarshalEntries (l.map marshalEntry) = some l := by
  induction l with
  | nil => rfl
  | cons e rest ih =>
    simp only [List.map_cons, unmarshalEntries,
      unmarshalEntry_marshalEntry e (hv e (List.mem_cons_self e rest)),
      ih fun e2 he2 => hv e2 (List.mem_cons_of_mem e he2)]

/-- Round-trip of the store serialisation: re-parsing what
`writeClipboard` serialises recovers the clipboard field-for-field. -/
theorem unmarshal_marshal (c : Clipboard)
    (hv : validClipboardB c = true) :
    unmarshalClipboard (marshalClipboard c) = some c := by
  simp only [validClipboardB, List.all_eq_true] at hv
  simp only [marshalClipboard, unmarshalClipboard,
    unmarshalEntries_marshal c.entries fun e he => by
      simpa using hv e he]
  rfl

/-- C5: pasting an entry whose current_path no longer exists on disk
(the `os.Lstat` in `handlePaste`/`handlePasteAt` fails) is rejected with
the stale-entry error, whose message is the "no longer exists" text the
code produces; the operation returns the error before any filesystem
action or store write, so the clipboard entries are unchanged (in this
pure embedding an error return produces no new state). -/
theorem claim_C5_stale_entry (i : Nat) (persist : Bool) (s : Sys)
    (e eL : Entry)
    (hi : s.store.entries[i]? = some e)
    (hstale : s.fs.lookup e.current_path = none)
    (hlast : s.store.entries.getLast? = some eL)
    (hstaleL : s.fs.lookup eL.current_path = none) :
    handlePasteAt i persist s = .error (.staleEntry e.current_path) ∧
    handlePaste persist s = .error (.staleEntry eL.current_path) ∧
    CxErr.message (.staleEntry e.current_path) =
      "source path no longer exists: " ++ renderPath e.current_path := by
  refine ⟨?_, ?_, rfl⟩
  · simp [handlePasteAt, readClipboard, hi, hstale]
  · simp [handlePaste, readClipboard, hlast, hstaleL]

/-- Concrete instance of C5: a single-entry clipboard whose entry points
at a path that does not exist. -/
theorem claim_C5_witness :
    handlePasteAt 0 true
      ⟨FSObj.dir 0o755 .nil, [], ⟨[⟨["gone"], ["gone"], "t"⟩]⟩⟩ =
      .error (.staleEntry ["gone"]) ∧
    handlePaste true
      ⟨FSObj.dir 0o755 .nil, [], ⟨[⟨["gone"], ["gone"], "t"⟩]⟩⟩ =
      .error (.staleEntry ["gone"]) ∧
    CxErr.message (.staleEntry ["gone"]) =
      "source path no longer exists: " ++ renderPath ["gone"] :=
  claim_C5_stale_entry 0 true
    ⟨FSObj.dir 0o755 .nil, [], ⟨[⟨["gone"], ["gone"], "t"⟩]⟩⟩
    ⟨["gone"], ["gone"], "t"⟩ ⟨["gone"], ["gone"], "t"⟩ rfl rfl rfl rfl

/-- C6: paste on an empty clipboard fails, for either value of the
persist flag, with the error whose message is "clipboard is empty"; the
serialised form of the empty clipboard is exactly the object
{"entries": []}, and the error is returned before any filesystem action
or store write, so the store keeps that value. -/
theorem claim_C6_empty_paste (s : Sys) (h : s.store.entries = []) :
    handlePaste true s = .error .emptyClipboard ∧
    handlePaste false s = .error .emptyClipboard ∧
    CxErr.message .emptyClipboard = "clipboard is empty" ∧
    marshalClipboard ⟨[]⟩ = Json.obj [("entries", Json.arr [])] := by
  have hl : s.store.entries.getLast? = none := by simp [h]
  refine ⟨?_, ?_, rfl, rfl⟩ <;> simp [handlePaste, readClipboard, hl]

/-- Concrete instance of C6: the empty clipboard rejects both paste
modes. -/
theorem claim_C6_witness :
    handlePaste true ⟨FSObj.dir 0o755 .nil, [], ⟨[]⟩⟩ =
      .error .emptyClipboard ∧
    handlePaste false ⟨FSObj.dir 0o755 .nil, [], ⟨[]⟩⟩ =
      .error .emptyClipboard ∧
    CxErr.message .emptyClipboard = "clipboard is empty" ∧
    marshalClipboard ⟨[]⟩ = Json.obj [("entries", Json.arr [])] :=
  claim_C6_empty_paste ⟨FSObj.dir 0o755 .nil, [], ⟨[]⟩⟩ rfl

/-- C7: `cutFile` validation: a path that does not resolve fails with
the not-found error; an existing non-symlink object the process cannot
read fails with the permission error; a path whose `Lstat` reports a
symlink skips the permission check entirely, so cutting a symlink —
broken or not — succeeds and appends the entry (the check runs only when
the cut target is not itself a symlink). -/
theorem claim_C7_cut_validation (s : Sys) (p1 p2 p3 : RawPath)
    (now : String) (o2 : FSObj) (t : Path)
    (h1 : s.fs.lookup (filepathAbs s.cwd p1) = none)
    (h2 : s.fs.lookup (filepathAbs s.cwd p2) = some o2)
    (h2s : isSymlinkB o2 = false) (h2r : canRead o2 = false)
    (h3 : s.fs.lookup (filepathAbs s.cwd p3) = some (.symlink t)) :
    cutFile p1 now s = .error (.notFound (filepathAbs s.cwd p1)) ∧
    cutFile p2 now s =
      .error (.noReadPermission (filepathAbs s.cwd p2)) ∧
    cutFile p3 now s = .ok (writeClipboard s
      ⟨s.store.entries ++ [⟨filepathAbs s.cwd p3,
        filepathAbs s.cwd p3, now⟩]⟩) := by
  refine ⟨?_, ?_, ?_⟩
  · simp [cutFile, h1]
  · simp [cutFile, h2, h2s, h2r]
  · simp [cutFile, h3, readClipboard, isSymlinkB]

/-- Concrete instance of C7: a missing path, an unreadable file (mode
0), and a broken symlink (target absent), against one filesystem. -/
theorem claim_C7_witness :
    cutFile ⟨true, ["missing"]⟩ "t"
      ⟨FSObj.dir 0o755 (.node "secret" (.file [1] 0)
        (.node "link" (.symlink ["nowhere"]) .nil)), [], ⟨[]⟩⟩ =
      .error (.notFound ["missing"]) ∧
    cutFile ⟨true, ["secret"]⟩ "t"
      ⟨FSObj.dir 0o755 (.node "secret" (.file [1] 0)
        (.node "link" (.symlink ["nowhere"]) .nil)), [], ⟨[]⟩⟩ =
      .error (.noReadPermission ["secret"]) ∧
    cutFile ⟨true, ["link"]⟩ "t"
      ⟨FSObj.dir 0o755 (.node "secret" (.file [1] 0)
        (.node "link" (.symlink ["nowhere"]) .nil)), [], ⟨[]⟩⟩ =
      .ok (writeClipboard
        ⟨FSObj.dir 0o755 (.node "secret" (.file [1] 0)
          (.node "link" (.symlink ["nowhere"]) .nil)), [], ⟨[]⟩⟩
        ⟨[] ++ [⟨["link"], ["link"], "t"⟩]⟩) :=
  claim_C7_cut_validation
    ⟨FSObj.dir 0o755 (.node "secret" (.file [1] 0)
      (.node "link" (.symlink ["nowhere"]) .nil)), [], ⟨[]⟩⟩
    ⟨true, ["missing"]⟩ ⟨true, ["secret"]⟩ ⟨true, ["link"]⟩ "t"
    (.file [1] 0) ["nowhere"] rfl rfl rfl rfl rfl

/-- C9: serialising a clipboard the way `writeClipboard` does and
re-parsing it the way `readClipboard` does recovers the entries sequence
field-for-field; the validity hypothesis says every path consists of
nonempty slash-free components, which characterises the clipboards
representable in the component-list path model (Go stores paths as flat
strings, for which JSON string round-tripping is unconditional). -/
theorem claim_C9_round_trip (c : Clipboard)
    (hv : validClipboardB c = true) :
    unmarshalClipboard (marshalClipboard c) = some c :=
  unmarshal_marshal c hv

/-- Concrete instance of C9: a two-entry clipboard round-trips. -/
theorem claim_C9_witness :
    unmarshalClipboard (marshalClipboard
      ⟨[⟨["home", "u", "a.txt"], ["home", "u", "a.txt"],
         "2024-01-01T00:00:00Z"⟩,
        ⟨["tmp", "b"], ["home", "u", "b"], "2024-01-02T03:04:05Z"⟩]⟩) =
      some ⟨[⟨["home", "u", "a.txt"], ["home", "u", "a.txt"],
         "2024-01-01T00:00:00Z"⟩,
        ⟨["tmp", "b"], ["home", "u", "b"], "2024-01-02T03:04:05Z"⟩]⟩ :=
  claim_C9_round_trip
    ⟨[⟨["home", "u", "a.txt"], ["home", "u", "a.txt"],
       "2024-01-01T00:00:00Z"⟩,
      ⟨["tmp", "b"], ["home", "u", "b"], "2024-01-02T03:04:05Z"⟩]⟩
    (by decide)

/-- C8 (amended): cutting a sequence of paths, each of which exists and
is readable (or is itself a symlink, which skips the read check),
appends one entry per cut in the exact order cut, with original and
current path both the absolute resolution of the argument and the
supplied capture timestamp; the filesystem and working directory are
untouched.  Starting from an empty store this gives length N in order.
The readability proviso is what the original claim is missing: an
existing but unreadable path makes `cutFile` fail (see the
counterexample), so existence alone does not yield N entries. -/
theorem claim_C8_cut_sequence (items : List (RawPath × String)) (s : Sys)
    (h : ∀ it ∈ items, cutOkB s.fs s.cwd it.1 = true) :
    cutAll items s = .ok { s with store := ⟨s.store.entries ++
      items.map fun it => ⟨filepathAbs s.cwd it.1,
        filepathAbs s.cwd it.1, it.2⟩⟩ } := by
  induction items generalizing s with
  | nil => simp [cutAll]
  | cons it rest ih =>
    obtain ⟨p, tnow⟩ := it
    have hok := h (p, tnow) (List.mem_cons_self _ _)
    cases hl : s.fs.lookup (filepathAbs s.cwd p) with
    | none => simp [cutOkB, hl] at hok
    | some o =>
      have hcut : cutFile p tnow s = .ok (writeClipboard s
          ⟨s.store.entries ++ [⟨filepathAbs s.cwd p,
            filepathAbs s.cwd p, tnow⟩]⟩) := by
        cases o with
        | symlink t => simp [cutFile, hl, isSymlinkB, readClipboard]
        | file content mode =>
          have : canRead (.file content mode) = true := by
            simpa [cutOkB, hl] using hok
          simp [cutFile, hl, isSymlinkB, this, readClipboard]
        | dir m cs =>
          have : canRead (.dir m cs) = true := by
            simpa [cutOkB, hl] using hok
          simp [cutFile, hl, isSymlinkB, this, readClipboard]
      simp only [cutAll, hcut]
      refine (ih (writeClipboard s ⟨s.store.entries ++
          [⟨filepathAbs s.cwd p, filepathAbs s.cwd p, tnow⟩]⟩)
        fun it2 hm => h it2 (List.mem_cons_of_mem _ hm)).trans ?_
      simp [writeClipboard]

/-- Concrete instance of the amended C8: two cuts append two entries in
order, oldest first, leaving the filesystem untouched. -/
theorem claim_C8_witness :
    cutAll [(⟨true, ["a"]⟩, "t1"), (⟨true, ["b"]⟩, "t2")]
      ⟨FSObj.dir 0o755 (.node "a" (.file [1] 0o644)
        (.node "b" (.file [2] 0o644) .nil)), [], ⟨[]⟩⟩ =
      .ok ⟨FSObj.dir 0o755 (.node "a" (.file [1] 0o644)
        (.node "b" (.file [2] 0o644) .nil)), [],
        ⟨[] ++ [⟨["a"], ["a"], "t1"⟩, ⟨["b"], ["b"], "t2"⟩]⟩⟩ :=
  claim_C8_cut_sequence [(⟨true, ["a"]⟩, "t1"), (⟨true, ["b"]⟩, "t2")]
    ⟨FSObj.dir 0o755 (.node "a" (.file [1] 0o644)
      (.node "b" (.file [2] 0o644) .nil)), [], ⟨[]⟩⟩
    (by decide)

/-- Counterexample to C8 as stated: a path that exists but carries no
read permission (mode 0).  The claim promises that cutting any sequence
of distinct existing paths yields one entry per path, but this single
cut of an existing path fails with the permission error and appends
nothing. -/
theorem claim_C8_counterexample :
    cutFile ⟨true, ["a", "f"]⟩ "t0"
      ⟨FSObj.dir 0o755 (.node "a" (.dir 0o755
        (.node "f" (.file [1] 0) .nil)) .nil), [], ⟨[]⟩⟩ =
      .error (.noReadPermission ["a", "f"]) := rfl

theorem move_paste_spec {s : Sys} {es : List Entry} {e : Entry}
    {o : FSObj} {m : Nat} {cs : FSChildren} {b : String}
    (h0 : s.store.entries = es ++ [e])
    (hb : e.current_path.getLast? = some b)
    (ho : s.fs.lookup e.current_path = some o)
    (hcwd : s.fs.lookup s.cwd = some (.dir m cs))
    (hd1 : ¬ e.current_path <+: s.cwd ++ [b])
    (hd2 : ¬ s.cwd ++ [b] <+: e.current_path)
    (hok : renameOverOk o (s.fs.lookup (s.cwd ++ [b])) = true) :
    ∃ fs2, handlePaste false s = .ok ⟨fs2, s.cwd, ⟨es⟩⟩ ∧
      fs2.lookup (s.cwd ++ [b]) = some o ∧
      fs2.lookup e.current_path = none := by
  have hjb : joinBase s.cwd e.current_path = s.cwd ++ [b] := by
    simp [joinBase, hb]
  obtain ⟨fs2, hrn, hdst, hsrc⟩ := renameFS_succeeds ho hcwd hd1 hd2 hok
  have hrn2 : renameFS s.fs e.current_path
      (joinBase s.cwd e.current_path) = some fs2 := by
    rw [hjb]
    exact hrn
  have hp := pasteEntry_move_run ho hrn2
  have hlast : s.store.entries.getLast? = some e := by
    rw [h0]
    exact List.getLast?_concat es
  have hidx : s.store.entries[s.store.entries.length - 1]? = some e := by
    rw [h0, show (es ++ [e]).length - 1 = es.length by simp]
    exact List.getElem?_concat_length es e
  refine ⟨fs2, ?_, hdst, hsrc⟩
  rw [handlePaste_run hlast ho, handlePasteAt_run hidx ho hp]
  show removeFromClipboard (s.store.entries.length - 1)
      { s with fs := fs2 } = .ok ⟨fs2, s.cwd, ⟨es⟩⟩
  rw [removeFromClipboard_run (s := { s with fs := fs2 }) hidx]
  show Except.ok (⟨fs2, s.cwd,
    ⟨s.store.entries.eraseIdx (s.store.entries.length - 1)⟩⟩ : Sys) = _
  rw [h0, show (es ++ [e]).length - 1 = es.length by simp,
    eraseIdx_concat]

/-- C1 (amended): move-paste of the most recent entry, provided neither
the source path nor the destination path cwd/base is a prefix of the
other (in particular they differ — the counterexample shows the claim
fails when the working directory is the source's own directory), the
working directory is a directory, and the destination is either free or
one `rename(2)` may replace (a non-directory over a non-directory, a
directory over an empty directory; otherwise `os.Rename` fails with
`EISDIR`, `ENOTDIR` or `ENOTEMPTY` and the entry is kept): the paste
succeeds, the source object now sits at the destination, the source
path no longer exists, and the entries sequence loses exactly its last
element. -/
theorem claim_C1_move_paste (s : Sys) (es : List Entry) (e : Entry)
    (o : FSObj) (m : Nat) (cs : FSChildren) (b : String)
    (h0 : s.store.entries = es ++ [e])
    (hb : e.current_path.getLast? = some b)
    (ho : s.fs.lookup e.current_path = some o)
    (hcwd : s.fs.lookup s.cwd = some (.dir m cs))
    (hd1 : ¬ e.current_path <+: s.cwd ++ [b])
    (hd2 : ¬ s.cwd ++ [b] <+: e.current_path)
    (hok : renameOverOk o (s.fs.lookup (s.cwd ++ [b])) = true) :
    ∃ fs2, handlePaste false s = .ok ⟨fs2, s.cwd, ⟨es⟩⟩ ∧
      fs2.lookup (s.cwd ++ [b]) = some o ∧
      fs2.lookup e.current_path = none ∧
      es.length + 1 = s.store.entries.length := by
  obtain ⟨fs2, hrun, hdst, hsrc⟩ :=
    move_paste_spec h0 hb ho hcwd hd1 hd2 hok
  exact ⟨fs2, hrun, hdst, hsrc, by rw [h0]; simp⟩

/-- Concrete instance of the amended C1: /a/f is cut and move-pasted
from the unrelated working directory /b; afterwards /b/f holds the file,
/a/f is gone, and the clipboard is empty. -/
theorem claim_C1_witness :
    ∃ fs2, handlePaste false
      ⟨FSObj.dir 0o755 (.node "a" (.dir 0o755
          (.node "f" (.file [1] 0o644) .nil))
        (.node "b" (.dir 0o755 .nil) .nil)),
       ["b"], ⟨[⟨["a", "f"], ["a", "f"], "t0"⟩]⟩⟩ =
      .ok ⟨fs2, ["b"], ⟨[]⟩⟩ ∧
      fs2.lookup (["b"] ++ ["f"]) = some (.file [1] 0o644) ∧
      fs2.lookup ["a", "f"] = none ∧
      List.length ([] : List Entry) + 1 = List.length
        [(⟨["a", "f"], ["a", "f"], "t0"⟩ : Entry)] :=
  claim_C1_move_paste
    ⟨FSObj.dir 0o755 (.node "a" (.dir 0o755
        (.node "f" (.file [1] 0o644) .nil))
      (.node "b" (.dir 0o755 .nil) .nil)),
     ["b"], ⟨[⟨["a", "f"], ["a", "f"], "t0"⟩]⟩⟩
    [] ⟨["a", "f"], ["a", "f"], "t0"⟩ (.file [1] 0o644) 0o755
    (.nil) "f" rfl rfl rfl rfl (by decide) (by decide) rfl

/-- Counterexample to C1 as stated: move-pasting an entry while the
working directory is the directory already containing it.  The
destination cwd/base then equals the source path, `os.Rename` onto the
same path is a successful no-op, so the operation reports success and
removes the entry — but the source object still exists, refuting the
claim's "the source object no longer exists". -/
theorem claim_C1_counterexample :
    handlePaste false
      ⟨FSObj.dir 0o755 (.node "a" (.dir 0o755
        (.node "f" (.file [1] 0o644) .nil)) .nil),
       ["a"], ⟨[⟨["a", "f"], ["a", "f"], "t0"⟩]⟩⟩ =
      .ok ⟨FSObj.dir 0o755 (.node "a" (.dir 0o755
        (.node "f" (.file [1] 0o644) .nil)) .nil),
       ["a"], ⟨[]⟩⟩ ∧
    (FSObj.lookup (FSObj.dir 0o755 (.node "a" (.dir 0o755
      (.node "f" (.file [1] 0o644) .nil)) .nil)) ["a", "f"]).isSome =
      true :=
  ⟨rfl, rfl⟩

/-- C2 (amended): whenever copy-paste of the entry at a valid index
returns success, the working directory is unchanged, the entries
sequence keeps its length, the pasted entry is retained at the same
index with its current_path rewritten to cwd/base and its original_path
and timestamp untouched, the destination object exists, and the source
object still exists.  Unconditional success does not hold as the
original claim states it: destination collisions make the underlying
primitive fail — see the counterexample, where the source is a symbolic
link and an object already occupies the destination, so `os.Symlink`
fails with an EEXIST-class error. -/
theorem claim_C2_copy_paste (i : Nat) (s s2 : Sys) (e : Entry)
    (he : s.store.entries[i]? = some e)
    (h : handlePasteAt i true s = .ok s2) :
    s2.cwd = s.cwd ∧
    s2.store.entries.length = s.store.entries.length ∧
    s2.store.entries[i]? = some { e with
      current_path := joinBase s.cwd e.current_path } ∧
    (s2.fs.lookup (joinBase s.cwd e.current_path)).isSome = true ∧
    (s2.fs.lookup e.current_path).isSome = true := by
  obtain ⟨e2, res, fs2, he2, ⟨o, ho⟩, hp, hfs, hcwd, disj⟩ :=
    handlePasteAt_ok_inv h
  rw [he] at he2
  injection he2 with he2
  subst he2
  obtain ⟨hres, _⟩ := pasteEntry_res hp
  subst hres
  obtain ⟨wspec, hdst⟩ := pasteEntry_copy_spec hp
  rcases disj with ⟨_, hst⟩ | ⟨hfalse, _⟩
  · have hlt : i < s.store.entries.length := by
      by_contra hge
      rw [List.getElem?_eq_none_iff.mpr (Nat.le_of_not_lt hge)] at he
      exact Option.noConfusion he
    refine ⟨hcwd, ?_, ?_, ?_, ?_⟩
    · rw [hst]
      simp
    · rw [hst]
      exact List.getElem?_set_self hlt
    · rw [hfs]
      exact hdst
    · rw [hfs]
      exact wspec.2.2 e.current_path (by simp [ho])
  · exact absurd hfalse (by simp)

/-- Counterexample to C2 as stated: copy-pasting a symlink entry while
the working directory is the directory already containing it.  The
destination equals the source, `os.Symlink` fails because the new name
already exists, and the paste returns an error instead of updating the
entry. -/
theorem claim_C2_counterexample :
    handlePasteAt 0 true
      ⟨FSObj.dir 0o755 (.node "a" (.dir 0o755
        (.node "x" (.file [2] 0o644)
          (.node "l" (.symlink ["a", "x"]) .nil))) .nil),
       ["a"], ⟨[⟨["a", "l"], ["a", "l"], "t0"⟩]⟩⟩ = .error .ioError :=
  rfl

/-- Concrete instance of the amended C2: /a/f copy-pasted into the
unrelated directory /out succeeds; both copies exist, the entry stays at
index 0 with current_path now /out/f and original_path untouched. -/
theorem claim_C2_witness :
    (⟨FSObj.dir 0o755 (.node "a" (.dir 0o755
        (.node "f" (.file [1] 0o644) .nil))
      (.node "out" (.dir 0o755
        (.node "f" (.file [1] 0o644) .nil)) .nil)),
      ["out"], ⟨[⟨["a", "f"], ["out", "f"], "t0"⟩]⟩⟩ : Sys).cwd =
      (⟨FSObj.dir 0o755 (.node "a" (.dir 0o755
          (.node "f" (.file [1] 0o644) .nil))
        (.node "out" (.dir 0o755 .nil) .nil)),
        ["out"], ⟨[⟨["a", "f"], ["a", "f"], "t0"⟩]⟩⟩ : Sys).cwd ∧
    (⟨FSObj.dir 0o755 (.node "a" (.dir 0o755
        (.node "f" (.file [1] 0o644) .nil))
      (.node "out" (.dir 0o755
        (.node "f" (.file [1] 0o644) .nil)) .nil)),
      ["out"], ⟨[⟨["a", "f"], ["out", "f"], "t0"⟩]⟩⟩ : Sys).store.entries.length =
      (⟨FSObj.dir 0o755 (.node "a" (.dir 0o755
          (.node "f" (.file [1] 0o644) .nil))
        (.node "out" (.dir 0o755 .nil) .nil)),
        ["out"], ⟨[⟨["a", "f"], ["a", "f"], "t0"⟩]⟩⟩ : Sys).store.entries.length ∧
    (⟨FSObj.dir 0o755 (.node "a" (.dir 0o755
        (.node "f" (.file [1] 0o644) .nil))
      (.node "out" (.dir 0o755
        (.node "f" (.file [1] 0o644) .nil)) .nil)),
      ["out"], ⟨[⟨["a", "f"], ["out", "f"], "t0"⟩]⟩⟩ : Sys).store.entries[(0 : Nat)]? =
      some { (⟨["a", "f"], ["a", "f"], "t0"⟩ : Entry) with
        current_path := joinBase ["out"] ["a", "f"] } ∧
    ((⟨FSObj.dir 0o755 (.node "a" (.dir 0o755
        (.node "f" (.file [1] 0o644) .nil))
      (.node "out" (.dir 0o755
        (.node "f" (.file [1] 0o644) .nil)) .nil)),
      ["out"], ⟨[⟨["a", "f"], ["out", "f"], "t0"⟩]⟩⟩ : Sys).fs.lookup
        (joinBase ["out"] ["a", "f"])).isSome = true ∧
    ((⟨FSObj.dir 0o755 (.node "a" (.dir 0o755
        (.node "f" (.file [1] 0o644) .nil))
      (.node "out" (.dir 0o755
        (.node "f" (.file [1] 0o644) .nil)) .nil)),
      ["out"], ⟨[⟨["a", "f"], ["out", "f"], "t0"⟩]⟩⟩ : Sys).fs.lookup
        ["a", "f"]).isSome = true :=
  claim_C2_copy_paste 0
    ⟨FSObj.dir 0o755 (.node "a" (.dir 0o755
        (.node "f" (.file [1] 0o644) .nil))
      (.node "out" (.dir 0o755 .nil) .nil)),
      ["out"], ⟨[⟨["a", "f"], ["a", "f"], "t0"⟩]⟩⟩
    ⟨FSObj.dir 0o755 (.node "a" (.dir 0o755
        (.node "f" (.file [1] 0o644) .nil))
      (.node "out" (.dir 0o755
        (.node "f" (.file [1] 0o644) .nil)) .nil)),
      ["out"], ⟨[⟨["a", "f"], ["out", "f"], "t0"⟩]⟩⟩
    ⟨["a", "f"], ["a", "f"], "t0"⟩ rfl rfl

/-- C4 (amended): symlink recreation applies only to the pasted object
itself: when the entry's current_path is (by `Lstat`) a symbolic link
and the copy-paste succeeds, the destination is a new symlink with the
identical target path, with no hypothesis that the target exists — the
target is neither dereferenced nor validated.  Symlinks that are
descendants inside a copied directory are not handled this way: the
child loop of `copyDir` sends every non-directory child through
`copyFile`, which dereferences it (see the counterexample). -/
theorem claim_C4_symlink_copy (i : Nat) (s s2 : Sys) (e : Entry)
    (t : Path)
    (he : s.store.entries[i]? = some e)
    (hl : s.fs.lookup e.current_path = some (.symlink t))
    (h : handlePasteAt i true s = .ok s2) :
    s2.fs.lookup (joinBase s.cwd e.current_path) = some (.symlink t) := by
  obtain ⟨e2, res, fs2, he2, ⟨o, ho⟩, hp, hfs, hcwd, disj⟩ :=
    handlePasteAt_ok_inv h
  rw [he] at he2
  injection he2 with he2
  subst he2
  rw [hfs]
  exact pasteEntry_copy_symlink hl hp

/-- Concrete instance of the amended C4: a broken symlink entry (target
"tgt" does not exist) is copy-pasted into /out; the destination is a new
symlink with the same target string. -/
theorem claim_C4_witness :
    (⟨FSObj.dir 0o755 (.node "a" (.dir 0o755
        (.node "l" (.symlink ["tgt"]) .nil))
      (.node "out" (.dir 0o755
        (.node "l" (.symlink ["tgt"]) .nil)) .nil)),
      ["out"], ⟨[⟨["a", "l"], ["out", "l"], "t0"⟩]⟩⟩ : Sys).fs.lookup
      (joinBase ["out"] ["a", "l"]) = some (.symlink ["tgt"]) :=
  claim_C4_symlink_copy 0
    ⟨FSObj.dir 0o755 (.node "a" (.dir 0o755
        (.node "l" (.symlink ["tgt"]) .nil))
      (.node "out" (.dir 0o755 .nil) .nil)),
      ["out"], ⟨[⟨["a", "l"], ["a", "l"], "t0"⟩]⟩⟩
    ⟨FSObj.dir 0o755 (.node "a" (.dir 0o755
        (.node "l" (.symlink ["tgt"]) .nil))
      (.node "out" (.dir 0o755
        (.node "l" (.symlink ["tgt"]) .nil)) .nil)),
      ["out"], ⟨[⟨["a", "l"], ["out", "l"], "t0"⟩]⟩⟩
    ⟨["a", "l"], ["a", "l"], "t0"⟩ ["tgt"] rfl rfl rfl

/-- Counterexample to C4 as stated: a directory containing a symlink /d/l
pointing at /d/tgt is copy-pasted.  The claim says every symlink
encountered, descendants included, is recreated as a symlink with the
same target; in fact the copied child /out/d/l is a regular file holding
the target's bytes (the symlink was dereferenced by `copyFile`). -/
theorem claim_C4_counterexample :
    lookupAfter (handlePasteAt 0 true
      ⟨FSObj.dir 0o755 (.node "d" (.dir 0o755
          (.node "tgt" (.file [7] 0o644)
            (.node "l" (.symlink ["d", "tgt"]) .nil)))
        (.node "out" (.dir 0o755 .nil) .nil)),
       ["out"], ⟨[⟨["d"], ["d"], "t0"⟩]⟩⟩) ["out", "d", "l"] =
      some (some (.file [7] 0o644)) :=
  rfl

/-- C10 (amended): staleness is decided by `os.Lstat` on current_path,
so an entry that is a broken symlink (its target absent) passes the
stale check and the paste proceeds as for any live entry: move-paste
renames the link to cwd/base and removes the entry, and copy-paste
recreates the broken link at the destination and keeps the entry with
its current_path updated — provided, as for any paste, that the
working directory is a directory and (for the copy, whose `os.Symlink`
fails on an existing name — see the counterexample) nothing occupies the
destination path. -/
theorem claim_C10_broken_symlink (s : Sys) (es : List Entry) (e : Entry)
    (t : Path) (m : Nat) (cs : FSChildren)
    (h0 : s.store.entries = es ++ [e])
    (hsym : s.fs.lookup e.current_path = some (.symlink t))
    (_hbroken : s.fs.lookup t = none)
    (hcwd : s.fs.lookup s.cwd = some (.dir m cs))
    (hfresh : s.fs.lookup (joinBase s.cwd e.current_path) = none) :
    (∃ fs2, handlePaste false s = .ok ⟨fs2, s.cwd, ⟨es⟩⟩ ∧
      fs2.lookup (joinBase s.cwd e.current_path) = some (.symlink t)) ∧
    (∃ s3, handlePaste true s = .ok s3 ∧
      s3.fs.lookup (joinBase s.cwd e.current_path) = some (.symlink t) ∧
      s3.store.entries.length = s.store.entries.length) := by
  have hne : e.current_path ≠ [] := by
    intro hnil
    rw [hnil] at hsym
    have hnl : s.fs.lookup [] = some s.fs := by cases s.fs <;> rfl
    rw [hnl] at hsym
    have hfs : s.fs = .symlink t := by injection hsym
    rw [hfs] at hcwd
    cases hcw : s.cwd with
    | nil =>
      rw [hcw] at hcwd
      simp [FSObj.lookup] at hcwd
    | cons x xs =>
      rw [hcw] at hcwd
      simp [FSObj.lookup] at hcwd
  obtain ⟨b, hb⟩ : ∃ b, e.current_path.getLast? = some b := by
    cases hgl : e.current_path.getLast? with
    | some b => exact ⟨b, rfl⟩
    | none => exact absurd (List.getLast?_eq_none_iff.mp hgl) hne
  have hjb : joinBase s.cwd e.current_path = s.cwd ++ [b] := by
    simp [joinBase, hb]
  rw [hjb] at hfresh
  rw [hjb]
  have hd2 : ¬ s.cwd ++ [b] <+: e.current_path := by
    intro hp
    obtain ⟨rest, hrest⟩ := hp
    rw [← hrest, lookup_append, hfresh] at hsym
    simp at hsym
  have hd1 : ¬ e.current_path <+: s.cwd ++ [b] := by
    intro hp
    rcases prefTotal hp
      (List.prefix_append s.cwd [b]) with hc1 | hc2
    · obtain ⟨r3, hr3⟩ := hc1
      cases r3 with
      | nil =>
        rw [List.append_nil] at hr3
        rw [hr3] at hsym
        rw [hcwd] at hsym
        simp at hsym
      | cons x xs =>
        rw [← hr3, lookup_append, hsym] at hcwd
        simp [FSObj.lookup] at hcwd
    · obtain ⟨r3, hr3⟩ := hc2
      rw [← hr3] at hp
      rw [List.prefix_append_right_inj] at hp
      cases r3 with
      | nil =>
        rw [List.append_nil] at hr3
        rw [← hr3] at hsym
        rw [hcwd] at hsym
        simp at hsym
      | cons y ys =>
        obtain ⟨hy, hys⟩ := List.cons_prefix_cons.mp hp
        have hys2 : ys = [] := List.prefix_nil.mp hys
        subst hys2
        subst hy
        rw [← hr3] at hsym
        rw [hfresh] at hsym
        exact Option.noConfusion hsym
  constructor
  · have hok : renameOverOk (.symlink t) (s.fs.lookup (s.cwd ++ [b])) =
        true := by rw [hfresh]; rfl
    obtain ⟨fs2, hrun, hdst, hsrc⟩ :=
      move_paste_spec h0 hb hsym hcwd hd1 hd2 hok
    exact ⟨fs2, hrun, hdst⟩
  · obtain ⟨fs3, hset⟩ := set_succeeds hcwd b (.symlink t)
    have hcp : copySymlink s.fs e.current_path (s.cwd ++ [b]) =
        some fs3 := by
      simp only [copySymlink, hsym, hfresh]
      exact hset
    have hcp2 : copySymlink s.fs e.current_path
        (joinBase s.cwd e.current_path) = some fs3 := by
      rw [hjb]
      exact hcp
    have hp3 := pasteEntry_symlink_run hsym hcp2
    have hlast : s.store.entries.getLast? = some e := by
      rw [h0]
      exact List.getLast?_concat es
    have hidx : s.store.entries[s.store.entries.length - 1]? = some e := by
      rw [h0, show (es ++ [e]).length - 1 = es.length by simp]
      exact List.getElem?_concat_length es e
    refine ⟨writeClipboard { s with fs := fs3 }
      ⟨s.store.entries.set (s.store.entries.length - 1)
        { e with current_path := joinBase s.cwd e.current_path }⟩,
      ?_, ?_, ?_⟩
    · rw [handlePaste_run hlast hsym, handlePasteAt_run hidx hsym hp3]
      show updateEntryPath (s.store.entries.length - 1)
        (joinBase s.cwd e.current_path) { s with fs := fs3 } = _
      rw [updateEntryPath_run (s := { s with fs := fs3 }) hidx]
    · show fs3.lookup (s.cwd ++ [b]) = some (.symlink t)
      exact set_some_lookup_self hset
    · show (s.store.entries.set _ _).length = s.store.entries.length
      simp

/-- Concrete instance of the amended C10: a broken symlink /a/l (target
/a/gone absent) is the most recent entry; pasted into the unrelated
directory /out, the stale check passes, move-paste relocates the link
and empties the clipboard, and copy-paste recreates the broken link at
/out/l keeping one entry. -/
theorem claim_C10_witness :
    (∃ fs2, handlePaste false
      ⟨FSObj.dir 0o755 (.node "a" (.dir 0o755
          (.node "l" (.symlink ["a", "gone"]) .nil))
        (.node "out" (.dir 0o755 .nil) .nil)),
       ["out"], ⟨[⟨["a", "l"], ["a", "l"], "t0"⟩]⟩⟩ =
        .ok ⟨fs2, ["out"], ⟨[]⟩⟩ ∧
      fs2.lookup (joinBase ["out"] ["a", "l"]) =
        some (.symlink ["a", "gone"])) ∧
    (∃ s3, handlePaste true
      ⟨FSObj.dir 0o755 (.node "a" (.dir 0o755
          (.node "l" (.symlink ["a", "gone"]) .nil))
        (.node "out" (.dir 0o755 .nil) .nil)),
       ["out"], ⟨[⟨["a", "l"], ["a", "l"], "t0"⟩]⟩⟩ = .ok s3 ∧
      s3.fs.lookup (joinBase ["out"] ["a", "l"]) =
        some (.symlink ["a", "gone"]) ∧
      s3.store.entries.length =
        (⟨FSObj.dir 0o755 (.node "a" (.dir 0o755
            (.node "l" (.symlink ["a", "gone"]) .nil))
          (.node "out" (.dir 0o755 .nil) .nil)),
         ["out"],
         ⟨[⟨["a", "l"], ["a", "l"], "t0"⟩]⟩⟩ : Sys).store.entries.length) :=
  claim_C10_broken_symlink
    ⟨FSObj.dir 0o755 (.node "a" (.dir 0o755
        (.node "l" (.symlink ["a", "gone"]) .nil))
      (.node "out" (.dir 0o755 .nil) .nil)),
     ["out"], ⟨[⟨["a", "l"], ["a", "l"], "t0"⟩]⟩⟩
    [] ⟨["a", "l"], ["a", "l"], "t0"⟩ ["a", "gone"] 0o755 .nil
    rfl rfl rfl rfl rfl

/-- Counterexample to C10 as stated: the same broken symlink copy-pasted
while the working directory is its own directory.  The stale check does
pass (no stale-entry error), but the claim's "copy-paste recreates the
broken link at the destination" fails: the destination equals the
source, `os.Symlink` fails on the existing name, and the paste returns
an error. -/
theorem claim_C10_counterexample :
    handlePaste true
      ⟨FSObj.dir 0o755 (.node "a" (.dir 0o755
        (.node "l" (.symlink ["a", "gone"]) .nil)) .nil),
       ["a"], ⟨[⟨["a", "l"], ["a", "l"], "t0"⟩]⟩⟩ = .error .ioError :=
  rfl

end Cx
